import Mathlib

/-!
# FileManager — verification of the sandboxed filesystem toolkit

Shallow embedding of the `FileManager` module (`src/unnamed/part_005`): a
JavaScript (Rhino/Java interop) class offering sandboxed path resolution,
directory traversal, tree rendering, storage-size computation, move/copy,
recursive deletion and ZIP pack/unpack.

Modelling conventions:
* Filesystem trees are an inductive `FSTree`; a directory node carries the
  length the filesystem reports for the node itself (`ownLen`, Java
  `File.length()` on a directory) and a last-modified stamp.
* Canonicalization (`File.getCanonicalPath`, symlink and `..` resolution)
  is an external effect and is passed in as a function parameter.
* The host byte-stream primitives (`FileStream.read`/`write`, excluded by the
  spec as external collaborators) are passed in as oracles that can succeed,
  return null, or throw.
* Java exceptions are modelled with `Except`/`Option`; JavaScript numbers
  used by `_convertSize` are modelled as exact rationals, with `toFixed(2)`
  modelled as round-half-up to two decimals.
-/

/- ===================== string helpers (kernel-computable) ===================== -/

/-- `String.prototype.startsWith` / Java `String.startsWith`, via the
character list (the builtin `String.startsWith` does not reduce in the
kernel). -/
def strStartsWith (s pre : String) : Bool := pre.toList.isPrefixOf s.toList

/-- Java `String.endsWith`, via the character list. -/
def strEndsWith (s suf : String) : Bool := suf.toList.isSuffixOf s.toList

/-- `String.prototype.trim`: strip whitespace from both ends. -/
def strTrim (s : String) : String :=
  String.mk (((s.toList.dropWhile Char.isWhitespace).reverse.dropWhile
    Char.isWhitespace).reverse)

/- ========================== C1: _resolvePath ========================== -/

/-- Canonicalization oracle: `File.getCanonicalPath`, which may throw
(modelled as `none`). -/
def CanonFn : Type := String → Option String

/-- Java `new File(parent, child)` path join (separator insertion). -/
def joinPath (parent child : String) : String := parent ++ "/" ++ child

/-- Java `File.isAbsolute` on Unix: the path begins with the separator. -/
def isAbsolutePath (s : String) : Bool := strStartsWith s "/"

/-- `FileManager.prototype._resolvePath` (part_005 lines 75-109), sandboxed
branch. Empty trimmed input fails; an absolute path or one starting with
"sdcard/" is taken as-is, otherwise it is resolved against `basePath`; then
the canonical form must satisfy `canonicalPath.startsWith(baseCanonicalPath)`
(note: the code has no separator-boundary after the base prefix).
Returns the resolved (non-canonical) path, or `none` on failure. -/
def resolvePath (canon : CanonFn) (isSandboxed : Bool) (basePath : String)
    (userPath : String) : Option String :=
  if !isSandboxed then some userPath
  else
    let pathStr := strTrim userPath
    if pathStr = "" then none
    else
      let resolved :=
        if isAbsolutePath pathStr || strStartsWith pathStr "sdcard/" then pathStr
        else joinPath basePath pathStr
      match canon resolved, canon basePath with
      | some canonicalPath, some baseCanonicalPath =>
          if strStartsWith canonicalPath baseCanonicalPath then some resolved
          else none
      | _, _ => none

/-- A canonicalization oracle for inputs that are already canonical:
the identity. -/
def canonId : CanonFn := fun s => some s

/-- C1: counter-evidence. With sandbox base `/base` (canonical), the sibling
path `/base2` — which is NOT under the base (it is neither the base itself
nor an extension of `/base/`) — is ACCEPTED by `_resolvePath`, because the
code checks only `startsWith(baseCanonicalPath)` with no separator-boundary.
The spec requires the canonical form to start with the canonical base plus a
path-separator boundary and `/base2` to be rejected with SecurityViolation. -/
theorem resolvePath_accepts_sibling_escape :
    resolvePath canonId true "/base" "/base2" = some "/base2"
      ∧ ¬ ("/base2" = "/base" ∨ strStartsWith "/base2" ("/base" ++ "/") = true) := by
  constructor
  · decide
  · decide

/- ===================== C4: read and the write family ===================== -/

/-- Outcome of a host byte-stream primitive call (`FileStream.read` etc.):
success with content, a null result, or a thrown exception. -/
inductive PrimResult where
  | ok (content : String)
  | nullRes
  | thrown
deriving DecidableEq, Repr

/-- `FileManager.prototype.read` (part_005 lines 526-530). The resolved path
is `none` when `_resolvePath` failed. The body is
`return FileStream.read(file.getAbsolutePath())` with NO try/catch, so a
thrown primitive exception propagates to the caller (`Except.error`). -/
def readFM (prim : String → PrimResult) (resolved : Option String) :
    Except Unit (Option String) :=
  match resolved with
  | none => .ok none
  | some p =>
    match prim p with
    | .ok c => .ok (some c)
    | .nullRes => .ok none
    | .thrown => .error ()

/-- `FileManager.prototype.write` (part_005 lines 507-519): same primitive
call shape, but wrapped in try/catch that converts a throw into `null`. -/
def writeFM (prim : String → PrimResult) (resolved : Option String) :
    Except Unit (Option String) :=
  match resolved with
  | none => .ok none
  | some p =>
    match prim p with
    | .ok c => .ok (some c)
    | .nullRes => .ok none
    | .thrown => .ok none

/-- C4: counter-evidence. On a path whose underlying byte-stream read throws,
`read` propagates the exception out of the public boundary instead of
returning the `null` sentinel — while the sibling operation `write`, whose
body wraps the same primitive family in try/catch, converts the same failure
to `null`. -/
theorem read_propagates_primitive_failure :
    readFM (fun _ => .thrown) (some "/f") = .error ()
      ∧ writeFM (fun _ => .thrown) (some "/f") = .ok none := by
  exact ⟨rfl, rfl⟩

/- ============================ C3: move ============================ -/

/-- The externally observable steps `move` can take, in order. `mkdirParent`
is the `destParent.mkdirs()` call (touches only the destination side). -/
inductive MoveAction where
  | mkdirParent
  | renameAttempt
  | copyAttempt
  | removeAttempt
deriving DecidableEq, Repr

/-- Outcomes of the filesystem effects `move` depends on. -/
structure MoveEnv where
  sourceResolves : Bool
  destResolves : Bool
  sourceExists : Bool
  renameSucceeds : Bool
  copySucceeds : Bool
  removeSucceeds : Bool
deriving DecidableEq, Repr

/-- `FileManager.prototype.move` (part_005 lines 575-609): resolve both
paths, require the source to exist, create the destination parent, try
`renameTo`; on rename failure call `copy`, and only if copy succeeded call
`remove` on the source (whose outcome becomes move's result). Returns the
boolean result paired with the trace of attempted actions. -/
def move (env : MoveEnv) : Bool × List MoveAction :=
  if !env.sourceResolves || !env.destResolves then (false, [])
  else if !env.sourceExists then (false, [])
  else if env.renameSucceeds then (true, [.mkdirParent, .renameAttempt])
  else if env.copySucceeds then
    (env.removeSucceeds, [.mkdirParent, .renameAttempt, .copyAttempt, .removeAttempt])
  else (false, [.mkdirParent, .renameAttempt, .copyAttempt])

/-- C3: for every existing, resolvable source and destination, `move` first
attempts a rename; on rename failure it falls back to copy followed by
recursive delete of the source; and if the copy fails, `move` returns `false`
and never attempts the source deletion (the failed rename and the copy do not
modify the source, so the source is left intact). -/
theorem move_rename_copy_delete_order (env : MoveEnv)
    (hs : env.sourceResolves = true) (hd : env.destResolves = true)
    (he : env.sourceExists = true) :
    (env.renameSucceeds = true →
        move env = (true, [.mkdirParent, .renameAttempt]))
      ∧ (env.renameSucceeds = false → env.copySucceeds = true →
        move env = (env.removeSucceeds,
          [.mkdirParent, .renameAttempt, .copyAttempt, .removeAttempt]))
      ∧ (env.renameSucceeds = false → env.copySucceeds = false →
        (move env).1 = false ∧ MoveAction.removeAttempt ∉ (move env).2) := by
  refine ⟨?_, ?_, ?_⟩ <;> intros <;> simp_all [move]

/-- C3 witness: a concrete environment where the rename and the copy both
fail — move returns false and the source delete is never attempted. -/
theorem move_rename_copy_delete_order_witness :
    (move (MoveEnv.mk true true true false false false)).1 = false
      ∧ MoveAction.removeAttempt ∉ (move (MoveEnv.mk true true true false false false)).2 :=
  (move_rename_copy_delete_order (MoveEnv.mk true true true false false false)
    rfl rfl rfl).2.2 rfl rfl

/- ====================== C2: unzip Zip-Slip defense ====================== -/

/-- One archive entry as `unzip` sees it: the stored name (may contain `..`)
and the directory flag (`ZipEntry.isDirectory`, name ends in `/`). -/
structure ZipEntryS where
  entryName : String
  isDir : Bool
deriving DecidableEq, Repr

/-- A filesystem node created by `unzip`, recorded by its canonical path. -/
structure CreatedItem where
  path : String
  isDir : Bool
deriving DecidableEq, Repr

/-- Total canonicalization oracle used by the unzip model (`unzip` catches a
canonicalization throw the same way as a security violation: it returns
`null`, creating nothing further, so modelling `canon` as total loses no
reachable behaviour for this claim). -/
def TotalCanon : Type := String → String

/-- The normalized destination root the code compares against (part_005
lines 812-821): the canonical destination, with a trailing separator
appended when missing. -/
def destRoot (canon : TotalCanon) (dest : String) : String :=
  let c := canon dest
  if strEndsWith c "/" then c else c ++ "/"

/-- Candidate output path of one entry: `new File(destDirectory,
zipEntry.getName()).getCanonicalPath()` (part_005 lines 831-832). -/
def candidatePath (canon : TotalCanon) (dest : String) (e : ZipEntryS) : String :=
  canon (joinPath dest e.entryName)

/-- The per-entry Zip-Slip check (part_005 line 834):
`newFilePath.startsWith(destDirPath)`. -/
def entryPasses (canon : TotalCanon) (dest : String) (e : ZipEntryS) : Bool :=
  strStartsWith (candidatePath canon dest e) (destRoot canon dest)

/-- The entry loop of `unzip` (part_005 lines 830-858): entries are processed
in order; an entry failing the Zip-Slip check throws, which the surrounding
catch converts to a `null` return, leaving the items already created.
Directory and parent creation and the byte-stream copy are modelled as
recording the created item (I/O failures there also throw into the same
catch, only creating fewer items). Returns (result, created items). -/
def unzipLoop (canon : TotalCanon) (dest : String) :
    List ZipEntryS → List CreatedItem → Option String × List CreatedItem
  | [], acc => (some dest, acc)
  | e :: es, acc =>
    if entryPasses canon dest e then
      unzipLoop canon dest es
        (acc ++ [{ path := candidatePath canon dest e, isDir := e.isDir }])
    else (none, acc)

/-- `FileManager.prototype.unzip` (part_005 lines 788-871), entry phase:
start from no created items. -/
def unzipSec (canon : TotalCanon) (dest : String) (entries : List ZipEntryS) :
    Option String × List CreatedItem :=
  unzipLoop canon dest entries []

/-- Helper: the loop's created list extends the accumulator with exactly the
items of the longest passing entry run, and fails iff some entry fails. -/
theorem unzipLoop_spec (canon : TotalCanon) (dest : String) :
    ∀ (entries : List ZipEntryS) (acc : List CreatedItem),
      (unzipLoop canon dest entries acc).2
          = acc ++ (entries.takeWhile (entryPasses canon dest)).map
              (fun e => { path := candidatePath canon dest e, isDir := e.isDir })
        ∧ ((unzipLoop canon dest entries acc).1 = none
            ↔ ¬ (∀ e ∈ entries, entryPasses canon dest e = true)) := by
  intro entries
  induction entries with
  | nil => intro acc; simp [unzipLoop]
  | cons e es ih =>
    intro acc
    by_cases h : entryPasses canon dest e = true
    · rcases ih (acc ++ [{ path := candidatePath canon dest e, isDir := e.isDir }]) with ⟨h1, h2⟩
      constructor
      · simp [unzipLoop, h, h1, List.takeWhile_cons]
      · simp [unzipLoop, h, h2]
    · constructor
      · simp [unzipLoop, h, List.takeWhile_cons]
      · simp only [unzipLoop, h, if_false, Bool.false_eq_true]
        simp only [true_iff, Classical.not_forall]
        exact ⟨e, by simp, by simp_all⟩

/-- C2: whenever some entry's candidate output path (destination joined with
the entry's stored name, canonicalized) fails the strictly-under check
against the canonical destination root, `unzip` returns `null`, it aborts at
the first such entry (only the entries strictly before it created anything),
and every item it did create lies strictly under the destination root. -/
theorem unzip_zip_slip_defense (canon : TotalCanon) (dest : String)
    (entries : List ZipEntryS)
    (hbad : ∃ e ∈ entries, entryPasses canon dest e = false) :
    (unzipSec canon dest entries).1 = none
      ∧ (unzipSec canon dest entries).2
          = (entries.takeWhile (entryPasses canon dest)).map
              (fun e => { path := candidatePath canon dest e, isDir := e.isDir })
      ∧ ∀ it ∈ (unzipSec canon dest entries).2,
          strStartsWith it.path (destRoot canon dest) = true := by
  rcases unzipLoop_spec canon dest entries [] with ⟨h1, h2⟩
  have hfail : (unzipSec canon dest entries).1 = none := by
    rw [unzipSec, h2]
    rcases hbad with ⟨e, he, hf⟩
    intro hall
    have := hall e he
    rw [hf] at this
    exact Bool.false_ne_true this
  refine ⟨hfail, by simpa [unzipSec] using h1, ?_⟩
  intro it hit
  rw [unzipSec] at hit
  rw [h1] at hit
  simp at hit
  rcases hit with ⟨e, he, hcp⟩
  have hp : entryPasses canon dest e = true := List.mem_takeWhile_imp he
  rw [← hcp]
  exact hp

/-- A small concrete canonicalizer for the witness: resolves the single
parent-traversal the malicious entry uses; identity elsewhere. -/
def canonEvil : TotalCanon := fun s =>
  if s = "/d/out/../evil.txt" then "/d/evil.txt" else s

/-- C2 witness: an archive whose first entry is `../evil.txt` makes `unzip`
of destination `/d/out` return `null` with nothing created. -/
theorem unzip_zip_slip_defense_witness :
    (unzipSec canonEvil "/d/out" [{ entryName := "../evil.txt", isDir := false }]).1 = none
      ∧ (unzipSec canonEvil "/d/out" [{ entryName := "../evil.txt", isDir := false }]).2
          = (([{ entryName := "../evil.txt", isDir := false }] :
                List ZipEntryS).takeWhile (entryPasses canonEvil "/d/out")).map
              (fun e => { path := candidatePath canonEvil "/d/out" e, isDir := e.isDir })
      ∧ ∀ it ∈ (unzipSec canonEvil "/d/out"
            [{ entryName := "../evil.txt", isDir := false }]).2,
          strStartsWith it.path (destRoot canonEvil "/d/out") = true :=
  unzip_zip_slip_defense canonEvil "/d/out"
    [{ entryName := "../evil.txt", isDir := false }]
    ⟨{ entryName := "../evil.txt", isDir := false }, by decide, by decide⟩

/- ========================= filesystem tree model ========================= -/

/-- A snapshot of a filesystem subtree. A directory node carries `ownLen`,
the length the filesystem reports for the directory node itself (Java
`File.length()` on a directory), which is unrelated to its contents. -/
inductive FSTree where
  | file (name : String) (content : String) (lastModified : Int)
  | dir (name : String) (ownLen : Nat) (lastModified : Int)
        (children : List FSTree)
deriving Repr

/-- `File.getName`. -/
def FSTree.name : FSTree → String
  | .file n _ _ => n
  | .dir n _ _ _ => n

/-- `File.isDirectory`. -/
def FSTree.isDirectory : FSTree → Bool
  | .file _ _ _ => false
  | .dir _ _ _ _ => true

/-- `File.isFile`. -/
def FSTree.isFile : FSTree → Bool
  | .file _ _ _ => true
  | .dir _ _ _ _ => false

/-- `File.lastModified`. -/
def FSTree.lastModified : FSTree → Int
  | .file _ _ lm => lm
  | .dir _ _ lm _ => lm

/-- `File.length()`: a file's byte length (content size), a directory's
filesystem-reported own length. -/
def FSTree.length : FSTree → Nat
  | .file _ c _ => c.length
  | .dir _ ol _ _ => ol

/-- `File.listFiles()` (as a list; `null`/empty both model as `[]` at use
sites that treat them alike). -/
def FSTree.children : FSTree → List FSTree
  | .file _ _ _ => []
  | .dir _ _ _ cs => cs

/-- Induction over `FSTree` with the hypothesis available for every child of
a directory. -/
theorem FSTree.inductionOn {motive : FSTree → Prop}
    (hf : ∀ n c lm, motive (.file n c lm))
    (hd : ∀ n ol lm cs, (∀ t ∈ cs, motive t) → motive (.dir n ol lm cs)) :
    ∀ t, motive t := fun t =>
  match t with
  | .file n c lm => hf n c lm
  | .dir n ol lm cs =>
    hd n ol lm cs (fun c hc => FSTree.inductionOn hf hd c)
termination_by t => sizeOf t
decreasing_by
  simp only [FSTree.dir.sizeOf_spec]
  have := List.sizeOf_lt_of_mem hc
  omega

/-- No two siblings share a name (always true of a real directory listing;
`String == String` is name equality). -/
def nodupNames : List String → Bool
  | [] => true
  | x :: xs => !(xs.contains x) && nodupNames xs

mutual

/-- Well-formedness of a tree snapshot: every directory's children carry
pairwise distinct names. -/
def wfB : FSTree → Bool
  | .file _ _ _ => true
  | .dir _ _ _ cs => nodupNames (cs.map FSTree.name) && wfChildren cs

def wfChildren : List FSTree → Bool
  | [] => true
  | c :: rest => wfB c && wfChildren rest

end

/- ================= _traverseDirectory: the generic walker ================= -/

/-- Traversal order option of `_traverseDirectory`. -/
inductive WalkOrder where
  | pre
  | post
deriving DecidableEq, Repr

/-- The trailing `post`-order `onDir` invocation of `walk`. -/
def walkDirTail {σ : Type} (onDir : List String → FSTree → σ → σ)
    (order : WalkOrder) (p : List String) (t : FSTree) (s : σ) : σ :=
  if order = .post then onDir p t s else s

mutual

/-- The recursive `walk` closure of `_traverseDirectory` (part_005 lines
194-219): on a directory, invoke `onDir` before the children in `pre` order;
walk the children in listing order; invoke `onFile` on a file; invoke
`onDir` after the children in `post` order. Visitors receive the node's
path relative to the traversal root (root = `[]`) and the node itself;
the context is threaded through. -/
def walkNode {σ : Type} (onFile onDir : List String → FSTree → σ → σ)
    (order : WalkOrder) : List String → FSTree → σ → σ
  | p, .file n c lm, s => onFile p (.file n c lm) s
  | p, .dir n ol lm cs, s =>
    walkDirTail onDir order p (.dir n ol lm cs)
      (walkList onFile onDir order p cs
        (if order = .pre then onDir p (.dir n ol lm cs) s else s))
termination_by _ t _ => sizeOf t
decreasing_by
  all_goals simp only [FSTree.dir.sizeOf_spec, List.cons.sizeOf_spec]
  all_goals omega

/-- The `for` loop over `currentFile.listFiles()` inside `walk`. -/
def walkList {σ : Type} (onFile onDir : List String → FSTree → σ → σ)
    (order : WalkOrder) : List String → List FSTree → σ → σ
  | _, [], s => s
  | p, c :: rest, s =>
    walkList onFile onDir order p rest
      (walkNode onFile onDir order (p ++ [c.name]) c s)
termination_by _ cs _ => sizeOf cs
decreasing_by
  all_goals simp only [FSTree.dir.sizeOf_spec, List.cons.sizeOf_spec]
  all_goals omega

end

/-- `FileManager.prototype._traverseDirectory` (part_005 lines 183-223):
walk the root node (the root exists in the tree model) with the supplied
visitors and initial context. -/
def traverseDirectory {σ : Type} (onFile onDir : List String → FSTree → σ → σ)
    (order : WalkOrder) (t : FSTree) (init : σ) : σ :=
  walkNode onFile onDir order [] t init

/-- Walker equation: file node. -/
theorem walkNode_file {σ : Type} (f d : List String → FSTree → σ → σ)
    (o : WalkOrder) (p : List String) (n c : String) (lm : Int) (s : σ) :
    walkNode f d o p (.file n c lm) s = f p (.file n c lm) s := by
  rw [walkNode]

/-- Walker equation: directory node, pre-order. -/
theorem walkNode_dir_pre {σ : Type} (f d : List String → FSTree → σ → σ)
    (p : List String) (n : String) (ol : Nat) (lm : Int) (cs : List FSTree) (s : σ) :
    walkNode f d .pre p (.dir n ol lm cs) s
      = walkList f d .pre p cs (d p (.dir n ol lm cs) s) := by
  rw [walkNode]
  simp [walkDirTail]

/-- Walker equation: directory node, post-order. -/
theorem walkNode_dir_post {σ : Type} (f d : List String → FSTree → σ → σ)
    (p : List String) (n : String) (ol : Nat) (lm : Int) (cs : List FSTree) (s : σ) :
    walkNode f d .post p (.dir n ol lm cs) s
      = d p (.dir n ol lm cs) (walkList f d .post p cs s) := by
  rw [walkNode]
  simp [walkDirTail]

/-- Walker equation: child loop, empty listing. -/
theorem walkList_nil {σ : Type} (f d : List String → FSTree → σ → σ)
    (o : WalkOrder) (p : List String) (s : σ) :
    walkList f d o p [] s = s := by
  rw [walkList]

/-- Walker equation: child loop, cons. -/
theorem walkList_cons {σ : Type} (f d : List String → FSTree → σ → σ)
    (o : WalkOrder) (p : List String) (c : FSTree) (rest : List FSTree) (s : σ) :
    walkList f d o p (c :: rest) s
      = walkList f d o p rest (walkNode f d o (p ++ [c.name]) c s) := by
  rw [walkList]

/- =================== C6: _convertSize and getStorageSize =================== -/

/-- `String.prototype.toLowerCase`, via the character list. -/
def strToLower (s : String) : String := String.mk (s.toList.map Char.toLower)

/-- JavaScript `Number.prototype.toFixed(2)` then `Number(...)`: round to two
decimal places. JavaScript numbers are modelled as exact rationals; the
rounding mode is round-half-up (ties are irrelevant to every claim here). -/
def round2 (q : ℚ) : ℚ := (⌊q * 100 + 1 / 2⌋ : ℚ) / 100

/-- `FileManager.prototype._convertSize` (part_005 lines 148-171): divide by
1024 per unit step (`b` identity, unrecognized unit falls to the `mb`
default), then round to 2 decimals. -/
def convertSize (bytes : ℚ) (unit : String) : ℚ :=
  match strToLower unit with
  | "b" => round2 bytes
  | "kb" => round2 (bytes / 1024)
  | "gb" => round2 (bytes / 1024 / 1024 / 1024)
  | "tb" => round2 (bytes / 1024 / 1024 / 1024 / 1024)
  | _ => round2 (bytes / 1024 / 1024)

/-- The `onFile` visitor of `getStorageSize`:
`context.totalSize += file.length()`. -/
def sizeOnFile : List String → FSTree → Nat → Nat := fun _ f s => s + f.length

/-- `getStorageSize` supplies no `onDir`: the default no-op visitor. -/
def sizeOnDir : List String → FSTree → Nat → Nat := fun _ _ s => s

/-- `FileManager.prototype.getStorageSize` (part_005 lines 881-904) on a
resolved, existing node: a file converts its own length; a directory sums
`file.length()` over every file in the subtree via `_traverseDirectory`
(default pre-order, `onFile` only, initial total 0) and converts the total. -/
def getStorageSize (t : FSTree) (unit : Option String) : ℚ :=
  let targetUnit := unit.getD "mb"
  match t with
  | .file n c lm => convertSize ((FSTree.file n c lm).length : ℚ) targetUnit
  | .dir n ol lm cs =>
    let total := traverseDirectory sizeOnFile sizeOnDir .pre (.dir n ol lm cs) 0
    convertSize (total : ℚ) targetUnit

mutual

/-- Specification-side total: the sum of the byte lengths of every file in
the subtree (directories contribute nothing). -/
def totalBytes : FSTree → Nat
  | .file _ c _ => c.length
  | .dir _ _ _ cs => totalBytesList cs
termination_by t => sizeOf t
decreasing_by
  all_goals simp only [FSTree.dir.sizeOf_spec, List.cons.sizeOf_spec]
  all_goals omega

/-- Sum of `totalBytes` over a sibling list. -/
def totalBytesList : List FSTree → Nat
  | [] => 0
  | c :: rest => totalBytes c + totalBytesList rest
termination_by cs => sizeOf cs
decreasing_by
  all_goals simp only [FSTree.dir.sizeOf_spec, List.cons.sizeOf_spec]
  all_goals omega

end

/-- `_convertSize` with unit `b` only rounds. -/
theorem convertSize_b (bytes : ℚ) : convertSize bytes "b" = round2 bytes := rfl

/-- `_convertSize` with unit `kb` divides once by 1024 and rounds. -/
theorem convertSize_kb (bytes : ℚ) :
    convertSize bytes "kb" = round2 (bytes / 1024) := rfl

/-- Rounding to two decimals is the identity on naturals. -/
theorem round2_natCast (n : Nat) : round2 (n : ℚ) = n := by
  rw [round2]
  have h1 : ((n : ℚ) * 100 + 1 / 2) = (1 / 2 : ℚ) + ((n * 100 : ℕ) : ℤ) := by
    push_cast
    ring
  rw [h1, Int.floor_add_int]
  have h2 : ⌊(1 / 2 : ℚ)⌋ = 0 := by
    rw [Int.floor_eq_zero_iff]
    constructor <;> norm_num
  rw [h2]
  push_cast
  ring

/-- The walker with the `getStorageSize` visitors adds `totalBytesList` over
a child list. -/
theorem walkList_totalBytes (cs : List FSTree)
    (h : ∀ c ∈ cs, ∀ p s, walkNode sizeOnFile sizeOnDir .pre p c s = s + totalBytes c) :
    ∀ p s, walkList sizeOnFile sizeOnDir .pre p cs s = s + totalBytesList cs := by
  induction cs with
  | nil =>
    intro p s
    rw [walkList_nil, totalBytesList]
    omega
  | cons c rest ih =>
    intro p s
    rw [walkList_cons, h c (by simp),
      ih (fun c hc => h c (by simp [hc])), totalBytesList]
    omega

/-- The walker with the `getStorageSize` visitors adds `totalBytes`. -/
theorem walkNode_totalBytes :
    ∀ (t : FSTree) (p : List String) (s : Nat),
      walkNode sizeOnFile sizeOnDir .pre p t s = s + totalBytes t := by
  intro t
  induction t using FSTree.inductionOn with
  | hf n c lm =>
    intro p s
    rw [walkNode_file, totalBytes]
    rfl
  | hd n ol lm cs ih =>
    intro p s
    rw [walkNode_dir_pre, walkList_totalBytes cs ih, totalBytes]
    rfl

/-- `getStorageSize` converts the subtree's total byte count, for any node
and explicit unit. -/
theorem getStorageSize_eq_convert (t : FSTree) (u : String) :
    getStorageSize t (some u) = convertSize ((totalBytes t : ℚ)) u := by
  cases t with
  | file n c lm =>
    rw [getStorageSize, totalBytes]
    rfl
  | dir n ol lm cs =>
    have h := walkNode_totalBytes (.dir n ol lm cs) [] 0
    simp only [getStorageSize, traverseDirectory, Option.getD_some]
    rw [h]
    norm_num

/-- In raw bytes, `getStorageSize` is the `totalBytes` of the subtree. -/
theorem getStorageSize_b_eq (t : FSTree) :
    getStorageSize t (some "b") = (totalBytes t : ℚ) := by
  rw [getStorageSize_eq_convert, convertSize_b, round2_natCast]

/-- The per-child byte-unit sizes add up to the sibling-list total. -/
theorem sum_getStorageSize_b (cs : List FSTree) :
    ((cs.map (fun c => getStorageSize c (some "b"))).sum)
      = (totalBytesList cs : ℚ) := by
  induction cs with
  | nil =>
    rw [totalBytesList]
    simp
  | cons c rest ih =>
    rw [totalBytesList]
    simp only [List.map_cons, List.sum_cons]
    rw [getStorageSize_b_eq, ih]
    push_cast
    ring

/-- C6 (amended): with unit `b` (raw bytes, where rounding is the identity),
`getStorageSize` of a directory equals the sum of `getStorageSize` of its
immediate children. -/
theorem getStorageSize_additive_bytes (n : String) (ol : Nat) (lm : Int)
    (cs : List FSTree) :
    getStorageSize (.dir n ol lm cs) (some "b")
      = (cs.map (fun c => getStorageSize c (some "b"))).sum := by
  rw [getStorageSize_b_eq, totalBytes, sum_getStorageSize_b]

/-- A directory with two 5-byte files: the smallest additivity
counterexample for a divided unit. -/
def sizeTree : FSTree := .dir "d" 0 0 [.file "a" "AAAAA" 0, .file "b" "BBBBB" 0]

/-- C6: counterexample. In unit `kb`, the directory's size (10 bytes →
round2(10/1024) = 0.01) differs from the sum of its children's sizes
(each round2(5/1024) = 0, sum 0): per-child rounding to two decimals breaks
additivity for any divided unit. -/
theorem getStorageSize_kb_not_additive :
    getStorageSize sizeTree (some "kb")
      ≠ ((sizeTree.children).map (fun c => getStorageSize c (some "kb"))).sum := by
  have h5 : totalBytes (.file "a" "AAAAA" (0 : Int)) = 5 := by rw [totalBytes]; rfl
  have h5b : totalBytes (.file "b" "BBBBB" (0 : Int)) = 5 := by rw [totalBytes]; rfl
  have h10 : totalBytes sizeTree = 10 := by
    rw [sizeTree, totalBytes, totalBytesList, totalBytesList, totalBytesList, h5, h5b]
  have hl : getStorageSize sizeTree (some "kb") = round2 (10 / 1024) := by
    rw [getStorageSize_eq_convert, h10, convertSize_kb]
    norm_num
  have hr : ((sizeTree.children).map (fun c => getStorageSize c (some "kb"))).sum
      = round2 (5 / 1024) + round2 (5 / 1024) := by
    show ((([.file "a" "AAAAA" 0, .file "b" "BBBBB" 0] : List FSTree)).map
      (fun c => getStorageSize c (some "kb"))).sum = _
    simp only [List.map_cons, List.map_nil, List.sum_cons, List.sum_nil]
    rw [getStorageSize_eq_convert, getStorageSize_eq_convert, h5, h5b, convertSize_kb]
    norm_num
  rw [hl, hr]
  have e1 : round2 (10 / 1024) = 1 / 100 := by
    rw [round2]
    rw [show (10 : ℚ) / 1024 * 100 + 1 / 2 = 189 / 128 by norm_num]
    rw [show ⌊(189 / 128 : ℚ)⌋ = 1 by
      rw [Int.floor_eq_iff] <;> norm_num]
    norm_num
  have e2 : round2 (5 / 1024) = 0 := by
    rw [round2]
    rw [show (5 : ℚ) / 1024 * 100 + 1 / 2 = 253 / 256 by norm_num]
    rw [show ⌊(253 / 256 : ℚ)⌋ = 0 by
      rw [Int.floor_eq_iff] <;> norm_num]
    norm_num
  rw [e1, e2]
  norm_num

/- ========================== C10: getMetadata ========================== -/

/-- Opaque stand-in for the `new Date(lastModified + 32_400_000)
.toISOString().replace('T',' ').slice(0,16)` rendering: the +09:00 offset is
applied; the calendar formatting itself is an external library behaviour no
claim depends on. -/
def isoTimestamp (ms : Int) : String := toString (ms + 32400000)

/-- The record `getMetadata` returns (the absolute-path string field is
produced by resolution, outside this tree model). -/
structure Metadata where
  name : String
  size : Nat
  lastModified : Int
  isDirectory : Bool
  readableSize : String
  readableLastModified : String
deriving Repr

/-- `FileManager.prototype.getMetadata` (part_005 lines 476-497) on a
resolved, existing node: `size` is `file.length()` of the node itself —
a directory reports its own filesystem length, not a recursive total. -/
def getMetadata (t : FSTree) : Metadata :=
  { name := t.name
    size := t.length
    lastModified := t.lastModified
    isDirectory := t.isDirectory
    readableSize := toString (convertSize ((t.length : ℕ) : ℚ) "mb") ++ " MB"
    readableLastModified := isoTimestamp t.lastModified }

/-- A directory whose filesystem node length (4096) differs from its
recursive content total (5 bytes). -/
def metaTree : FSTree := .dir "d" 4096 0 [.file "a" "hello" 0]

/-- C10: `getMetadata` of a directory reports the node's own
filesystem-reported length, not the recursive subtree total — and the two
genuinely differ on a concrete non-empty directory, where
`getStorageSize(path, b)` sums the files instead. -/
theorem getMetadata_dir_size_is_own_length (n : String) (ol : Nat) (lm : Int)
    (cs : List FSTree) :
    (getMetadata (.dir n ol lm cs)).size = ol
      ∧ ((getMetadata metaTree).size : ℚ) ≠ getStorageSize metaTree (some "b") := by
  constructor
  · rfl
  · rw [getStorageSize_b_eq]
    rw [show totalBytes metaTree = 5 by
      rw [metaTree, totalBytes, totalBytesList, totalBytesList, totalBytes]
      rfl]
    simp only [getMetadata, metaTree, FSTree.length]
    norm_num

/- ===================== C7: deleteDirectory ===================== -/

/-- Outcome oracle for `File.delete()` attempts, indexed by the node's
path relative to the deletion root (the root itself is `[]`). The success of
each attempt is decided by the external filesystem. -/
def DeleteOracle : Type := List String → Bool

/-- `deleteDirectory`'s `onFile` visitor:
`if (!file.delete()) context.success = false` — the attempt always happens,
the flag only ever drops to false. -/
def delOnFile (ok : DeleteOracle) : List String → FSTree → Bool → Bool :=
  fun p _ s => s && ok p

/-- `deleteDirectory`'s `onDir` visitor: identical attempt-and-mark. -/
def delOnDir (ok : DeleteOracle) : List String → FSTree → Bool → Bool :=
  fun p _ s => s && ok p

/-- `FileManager.prototype.deleteDirectory` (part_005 lines 274-297) on a
resolved, existing node: a plain file is deleted directly; a directory is
walked post-order with the marking visitors starting from `success = true`. -/
def deleteDirectory (ok : DeleteOracle) (t : FSTree) : Bool :=
  match t with
  | .file _ _ _ => ok []
  | .dir n ol lm cs =>
    traverseDirectory (delOnFile ok) (delOnDir ok) .post (.dir n ol lm cs) true

/-- Path-recording visitor (used to observe the walk order). -/
def visitRecord : List String → FSTree → List (List String) → List (List String) :=
  fun p _ s => s ++ [p]

/-- The sequence of node paths `deleteDirectory`'s traversal visits (i.e.
attempts to delete), in order. -/
def deleteVisits (t : FSTree) : List (List String) :=
  traverseDirectory visitRecord visitRecord .post t []

mutual

/-- Specification-side post-order path listing: every node of the subtree,
descendants before their directory. -/
def postPaths : List String → FSTree → List (List String)
  | p, .file _ _ _ => [p]
  | p, .dir _ _ _ cs => postPathsList p cs ++ [p]
termination_by _ t => sizeOf t
decreasing_by
  all_goals simp only [FSTree.dir.sizeOf_spec, List.cons.sizeOf_spec]
  all_goals omega

/-- `postPaths` over a sibling list, children in listing order. -/
def postPathsList : List String → List FSTree → List (List String)
  | _, [] => []
  | p, c :: rest => postPaths (p ++ [c.name]) c ++ postPathsList p rest
termination_by _ cs => sizeOf cs
decreasing_by
  all_goals simp only [FSTree.dir.sizeOf_spec, List.cons.sizeOf_spec]
  all_goals omega

end

mutual

/-- Specification-side set of every node path of the subtree. -/
def nodePaths : List String → FSTree → List (List String)
  | p, .file _ _ _ => [p]
  | p, .dir _ _ _ cs => p :: nodePathsList p cs
termination_by _ t => sizeOf t
decreasing_by
  all_goals simp only [FSTree.dir.sizeOf_spec, List.cons.sizeOf_spec]
  all_goals omega

/-- `nodePaths` over a sibling list. -/
def nodePathsList : List String → List FSTree → List (List String)
  | _, [] => []
  | p, c :: rest => nodePaths (p ++ [c.name]) c ++ nodePathsList p rest
termination_by _ cs => sizeOf cs
decreasing_by
  all_goals simp only [FSTree.dir.sizeOf_spec, List.cons.sizeOf_spec]
  all_goals omega

end

/-- The recording walker appends the post-order path list (sibling form). -/
theorem walkList_visits (cs : List FSTree)
    (h : ∀ c ∈ cs, ∀ p s, walkNode visitRecord visitRecord .post p c s
      = s ++ postPaths p c) :
    ∀ p s, walkList visitRecord visitRecord .post p cs s = s ++ postPathsList p cs := by
  induction cs with
  | nil =>
    intro p s
    rw [walkList_nil, postPathsList, List.append_nil]
  | cons c rest ih =>
    intro p s
    rw [walkList_cons, h c (by simp), ih (fun c hc => h c (by simp [hc])),
      postPathsList, List.append_assoc]

/-- The recording walker appends the post-order path list. -/
theorem walkNode_visits :
    ∀ (t : FSTree) (p : List String) (s : List (List String)),
      walkNode visitRecord visitRecord .post p t s = s ++ postPaths p t := by
  intro t
  induction t using FSTree.inductionOn with
  | hf n c lm =>
    intro p s
    rw [walkNode_file, postPaths]
    rfl
  | hd n ol lm cs ih =>
    intro p s
    rw [walkNode_dir_post, walkList_visits cs ih, postPaths]
    show (s ++ postPathsList p cs) ++ [p] = _
    rw [List.append_assoc]

/-- `deleteVisits` is exactly the post-order path list. -/
theorem deleteVisits_eq_postPaths (t : FSTree) :
    deleteVisits t = postPaths [] t := by
  rw [deleteVisits, traverseDirectory, walkNode_visits, List.nil_append]

/-- The marking walker computes the conjunction of the oracle over the
post-order path list (sibling form). -/
theorem walkList_delete (ok : DeleteOracle) (cs : List FSTree)
    (h : ∀ c ∈ cs, ∀ p s, walkNode (delOnFile ok) (delOnDir ok) .post p c s
      = (s && (postPaths p c).all ok)) :
    ∀ p s, walkList (delOnFile ok) (delOnDir ok) .post p cs s
      = (s && (postPathsList p cs).all ok) := by
  induction cs with
  | nil =>
    intro p s
    rw [walkList_nil, postPathsList]
    simp
  | cons c rest ih =>
    intro p s
    rw [walkList_cons, h c (by simp), ih (fun c hc => h c (by simp [hc])),
      postPathsList]
    simp [Bool.and_assoc]

/-- The marking walker computes the conjunction of the oracle over the
post-order path list. -/
theorem walkNode_delete (ok : DeleteOracle) :
    ∀ (t : FSTree) (p : List String) (s : Bool),
      walkNode (delOnFile ok) (delOnDir ok) .post p t s
        = (s && (postPaths p t).all ok) := by
  intro t
  induction t using FSTree.inductionOn with
  | hf n c lm =>
    intro p s
    rw [walkNode_file, postPaths]
    simp [delOnFile]
  | hd n ol lm cs ih =>
    intro p s
    rw [walkNode_dir_post, walkList_delete ok cs ih, postPaths]
    simp [delOnDir, Bool.and_assoc]

/-- Every path `postPaths` lists for a subtree extends the subtree's own
path. -/
theorem postPaths_shape :
    ∀ (t : FSTree) (p q : List String), q ∈ postPaths p t → p <+: q := by
  intro t
  induction t using FSTree.inductionOn with
  | hf n c lm =>
    intro p q hq
    rw [postPaths] at hq
    simp at hq
    simp [hq]
  | hd n ol lm cs ih =>
    intro p q hq
    rw [postPaths] at hq
    rcases List.mem_append.1 hq with h | h
    · clear hq
      induction cs with
      | nil => rw [postPathsList] at h; simp at h
      | cons c rest ihr =>
        rw [postPathsList] at h
        rcases List.mem_append.1 h with h1 | h1
        · have := ih c (by simp) (p ++ [c.name]) q h1
          exact (List.prefix_append p [c.name]).trans this
        · exact ihr (fun c hc => ih c (by simp [hc])) h1
    · simp at h
      simp [h]

/-- Every path `postPathsList` lists for a sibling list extends the path of
one of the siblings. -/
theorem postPathsList_shape :
    ∀ (cs : List FSTree) (p q : List String), q ∈ postPathsList p cs →
      ∃ c ∈ cs, (p ++ [c.name]) <+: q := by
  intro cs
  induction cs with
  | nil =>
    intro p q hq
    rw [postPathsList] at hq
    simp at hq
  | cons c rest ih =>
    intro p q hq
    rw [postPathsList] at hq
    rcases List.mem_append.1 hq with h | h
    · exact ⟨c, by simp, postPaths_shape c (p ++ [c.name]) q h⟩
    · rcases ih p q h with ⟨c1, hc1, hpre⟩
      exact ⟨c1, by simp [hc1], hpre⟩

/-- `postPaths` and `nodePaths` list the same paths (as sets): the walk
visits exactly the nodes of the subtree. -/
theorem postPaths_mem_nodePaths :
    ∀ (t : FSTree) (p q : List String),
      q ∈ postPaths p t ↔ q ∈ nodePaths p t := by
  intro t
  induction t using FSTree.inductionOn with
  | hf n c lm =>
    intro p q
    rw [postPaths, nodePaths]
  | hd n ol lm cs ih =>
    intro p q
    rw [postPaths, nodePaths]
    have hlist : q ∈ postPathsList p cs ↔ q ∈ nodePathsList p cs := by
      clear * - ih
      induction cs with
      | nil => rw [postPathsList, nodePathsList]
      | cons c rest ihr =>
        rw [postPathsList, nodePathsList]
        simp only [List.mem_append]
        rw [ih c (by simp), ihr (fun c hc => ih c (by simp [hc]))]
    simp only [List.mem_append, List.mem_cons, List.mem_singleton]
    rw [hlist]
    tauto

/-- A name absent per `contains` is absent per membership. -/
theorem not_mem_of_contains_false {x : String} {xs : List String}
    (h : xs.contains x = false) : x ∉ xs := by
  intro hmem
  simp at h
  exact h hmem

/-- `nodupNames` unfolding. -/
theorem nodupNames_cons (x : String) (xs : List String) :
    nodupNames (x :: xs) = true ↔ xs.contains x = false ∧ nodupNames xs = true := by
  rw [nodupNames]
  constructor
  · intro h
    rcases Bool.and_eq_true_iff.1 h with ⟨h1, h2⟩
    exact ⟨by simpa using h1, h2⟩
  · intro ⟨h1, h2⟩
    simp only [Bool.and_eq_true, Bool.not_eq_true']
    exact ⟨h1, h2⟩

/-- Sibling blocks of `postPathsList` never put a path before a strictly
deeper one, given distinct sibling names and per-child pairwise freedom. -/
theorem postPathsList_pairwise_of (p : List String) :
    ∀ (cs : List FSTree),
      nodupNames (cs.map FSTree.name) = true →
      (∀ c ∈ cs, (postPaths (p ++ [c.name]) c).Pairwise
        (fun a b => ¬ (a <+: b ∧ a ≠ b))) →
      (postPathsList p cs).Pairwise (fun a b => ¬ (a <+: b ∧ a ≠ b)) := by
  intro cs
  induction cs with
  | nil =>
    intro _ _
    rw [postPathsList]
    exact List.Pairwise.nil
  | cons c rest ih =>
    intro hnd hall
    rw [postPathsList]
    rw [List.pairwise_append]
    rcases (nodupNames_cons _ _).1 (by simpa using hnd) with ⟨hc, hrest⟩
    refine ⟨hall c (by simp), ih hrest (fun c1 hc1 => hall c1 (by simp [hc1])), ?_⟩
    intro a ha b hb ⟨hab, _⟩
    have hca : (p ++ [c.name]) <+: a := postPaths_shape c _ a ha
    rcases postPathsList_shape rest p b hb with ⟨c1, hc1, hcb⟩
    have hcab : (p ++ [c.name]) <+: b := hca.trans hab
    have heq : (p ++ [c.name]) = (p ++ [c1.name]) := by
      have hle : (p ++ [c.name]).length ≤ (p ++ [c1.name]).length := by simp
      have := List.prefix_of_prefix_length_le hcab hcb hle
      exact this.eq_of_length (by simp)
    have hname : c.name = c1.name := by
      have := List.append_cancel_left heq
      simpa using this
    exact not_mem_of_contains_false hc
      (hname ▸ List.mem_map_of_mem FSTree.name hc1)

/-- Post-order path lists of a well-formed tree never put a path before a
strictly deeper one: descendants are always listed before their ancestors. -/
theorem postPaths_pairwise :
    ∀ (t : FSTree), wfB t = true → ∀ (p : List String),
      (postPaths p t).Pairwise (fun a b => ¬ (a <+: b ∧ a ≠ b)) := by
  intro t
  induction t using FSTree.inductionOn with
  | hf n c lm =>
    intro _ p
    rw [postPaths]
    simp
  | hd n ol lm cs ih =>
    intro hwf p
    rw [wfB] at hwf
    rcases Bool.and_eq_true_iff.1 hwf with ⟨hnd, hch⟩
    have hchall : ∀ c ∈ cs, wfB c = true := by
      clear * - hch
      induction cs with
      | nil => intro c hc; simp at hc
      | cons c rest ihr =>
        rw [wfChildren] at hch
        rcases Bool.and_eq_true_iff.1 hch with ⟨h1, h2⟩
        intro c1 hc1
        rcases List.mem_cons.1 hc1 with h | h
        · rw [h]; exact h1
        · exact ihr h2 c1 h
    rw [postPaths]
    rw [List.pairwise_append]
    refine ⟨postPathsList_pairwise_of p cs hnd
      (fun c hc => ih c hc (hchall c hc) (p ++ [c.name])), by simp, ?_⟩
    intro a ha b hb
    simp only [List.mem_singleton] at hb
    intro ⟨hab, hne⟩
    rcases postPathsList_shape cs p a ha with ⟨c1, _, hca⟩
    have h1 : p.length + 1 ≤ a.length := by
      have := hca.length_le
      simpa using this
    have h2 : a.length ≤ p.length := by
      rw [hb] at hab
      exact hab.length_le
    omega

/-- C7: on every existing (well-formed) directory, `deleteDirectory`
(1) returns true exactly when every attempted deletion in the subtree
succeeded — a single failure makes the result false without stopping the
walk, whose visit list is fixed by the tree alone; (2) the walk visits
(attempts to delete) exactly the nodes of the subtree, root included; and
(3) the visits are post-order: no node is visited before a node strictly
below it, so files are deleted before their now-empty parent directories. -/
theorem deleteDirectory_postorder_best_effort (ok : DeleteOracle)
    (n : String) (ol : Nat) (lm : Int) (cs : List FSTree)
    (hwf : wfB (.dir n ol lm cs) = true) :
    (deleteDirectory ok (.dir n ol lm cs) = true
        ↔ ∀ p ∈ deleteVisits (.dir n ol lm cs), ok p = true)
      ∧ (∀ p, p ∈ deleteVisits (.dir n ol lm cs)
          ↔ p ∈ nodePaths [] (.dir n ol lm cs))
      ∧ (deleteVisits (.dir n ol lm cs)).Pairwise
          (fun a b => ¬ (a <+: b ∧ a ≠ b)) := by
  have hvis := deleteVisits_eq_postPaths (.dir n ol lm cs)
  refine ⟨?_, ?_, ?_⟩
  · rw [hvis]
    have hrun : deleteDirectory ok (.dir n ol lm cs)
        = (postPaths [] (.dir n ol lm cs)).all ok := by
      rw [deleteDirectory, traverseDirectory, walkNode_delete]
      simp
    rw [hrun, List.all_eq_true]
  · intro p
    rw [hvis]
    exact postPaths_mem_nodePaths _ [] p
  · rw [hvis]
    exact postPaths_pairwise _ hwf []

/-- C7 witness: the properties instantiated on a concrete two-level
directory with an oracle that fails on the subdirectory. -/
theorem deleteDirectory_postorder_best_effort_witness :
    (deleteDirectory (fun p => decide (p ≠ ["sub"]))
        (.dir "root" 0 0 [.dir "sub" 0 0 [.file "a" "x" 0], .file "b" "y" 0]) = true
        ↔ ∀ p ∈ deleteVisits
            (.dir "root" 0 0 [.dir "sub" 0 0 [.file "a" "x" 0], .file "b" "y" 0]),
          (fun p => decide (p ≠ ["sub"])) p = true)
      ∧ (∀ p, p ∈ deleteVisits
            (.dir "root" 0 0 [.dir "sub" 0 0 [.file "a" "x" 0], .file "b" "y" 0])
          ↔ p ∈ nodePaths []
            (.dir "root" 0 0 [.dir "sub" 0 0 [.file "a" "x" 0], .file "b" "y" 0]))
      ∧ (deleteVisits
            (.dir "root" 0 0 [.dir "sub" 0 0 [.file "a" "x" 0], .file "b" "y" 0])).Pairwise
          (fun a b => ¬ (a <+: b ∧ a ≠ b)) :=
  deleteDirectory_postorder_best_effort (fun p => decide (p ≠ ["sub"]))
    "root" 0 0 [.dir "sub" 0 0 [.file "a" "x" 0], .file "b" "y" 0]
    (by simp [wfB, wfChildren, nodupNames, FSTree.name])

/- =============== C8: getDirectoryTree's comparator and sort =============== -/

/-- `a.getName().localeCompare(b.getName())`: the locale-aware three-way
string comparison, modelled as the lexicographic order on strings. -/
def localeCompare (a b : String) : Int :=
  if a < b then -1 else if b < a then 1 else 0

/-- `t.isFile` is the negation of `t.isDirectory`. -/
theorem isFile_eq_not_isDirectory (t : FSTree) :
    t.isFile = !t.isDirectory := by
  cases t <;> rfl

/-- The key comparison of `getDirectoryTree`'s sort (the `switch` in
part_005 lines 420-433): `date` by timestamp difference; `size` by length
difference and only between two files (directories are never compared by
size, leaving 0); `name` and any other value by locale compare. -/
def keyCompare (sortBy : String) (a b : FSTree) : Int :=
  if sortBy = "date" then a.lastModified - b.lastModified
  else if sortBy = "size" then
    (if a.isFile && b.isFile then ((a.length : Int) - (b.length : Int)) else 0)
  else localeCompare a.name b.name

/-- The comparator of `getDirectoryTree`'s sort (part_005 lines 414-435):
a directory strictly precedes a file regardless of key and order (the early
returns come before the `desc` negation); otherwise the key comparison,
negated when `order = "desc"`. -/
def cmpEntries (sortBy order : String) (a b : FSTree) : Int :=
  if a.isDirectory && !b.isDirectory then -1
  else if !a.isDirectory && b.isDirectory then 1
  else if order = "desc" then -(keyCompare sortBy a b) else keyCompare sortBy a b

/-- `filteredList.sort(comparator)`: JavaScript's stable comparison sort,
modelled as insertion sort by `cmpEntries _ _ · · ≤ 0` (any stable sort with
a consistent comparator produces the same list). -/
def sortEntries (sortBy order : String) (l : List FSTree) : List FSTree :=
  l.insertionSort (fun a b => cmpEntries sortBy order a b ≤ 0)

/-- `localeCompare` is antisymmetric. -/
theorem localeCompare_antisymm (a b : String) :
    localeCompare a b = -(localeCompare b a) := by
  rw [localeCompare, localeCompare]
  rcases lt_trichotomy a b with h | h | h
  · simp [h, lt_asymm h, h.ne.symm]
  · simp [h]
  · simp [h, lt_asymm h, h.ne.symm]

/-- `localeCompare a b ≤ 0` states the lexicographic `a ≤ b`. -/
theorem localeCompare_le_iff (a b : String) :
    localeCompare a b ≤ 0 ↔ a ≤ b := by
  rw [localeCompare]
  rcases lt_trichotomy a b with h | h | h
  · simp [h, lt_asymm h, le_of_lt h]
  · simp [h]
  · simp [h, lt_asymm h, not_le.2 h]

/-- `keyCompare` is antisymmetric. -/
theorem keyCompare_antisymm (sortBy : String) (a b : FSTree) :
    keyCompare sortBy a b = -(keyCompare sortBy b a) := by
  rw [keyCompare, keyCompare]
  by_cases hd : sortBy = "date"
  · rw [if_pos hd, if_pos hd]
    omega
  · by_cases hs : sortBy = "size"
    · rw [if_neg hd, if_neg hd, if_pos hs, if_pos hs, Bool.and_comm]
      by_cases h3 : (b.isFile && a.isFile) = true
      · rw [if_pos h3, if_pos h3]
        omega
      · rw [if_neg h3, if_neg h3]
        omega
    · rw [if_neg hd, if_neg hd, if_neg hs, if_neg hs]
      exact localeCompare_antisymm a.name b.name

/-- `keyCompare ≤ 0` is transitive along a same-kind chain. -/
theorem keyCompare_le_trans (sortBy : String) {a b c : FSTree}
    (hab : a.isDirectory = b.isDirectory) (hbc : b.isDirectory = c.isDirectory)
    (h1 : keyCompare sortBy a b ≤ 0) (h2 : keyCompare sortBy b c ≤ 0) :
    keyCompare sortBy a c ≤ 0 := by
  have hfab : a.isFile = b.isFile := by
    rw [isFile_eq_not_isDirectory, isFile_eq_not_isDirectory, hab]
  have hfbc : b.isFile = c.isFile := by
    rw [isFile_eq_not_isDirectory, isFile_eq_not_isDirectory, hbc]
  rw [keyCompare] at h1 h2 ⊢
  by_cases hd : sortBy = "date"
  · rw [if_pos hd] at h1 h2 ⊢
    omega
  · by_cases hs : sortBy = "size"
    · rw [if_neg hd, if_pos hs] at h1 h2 ⊢
      cases haf : a.isFile
      · have hcf : c.isFile = false := by rw [← hfbc, ← hfab]; exact haf
        simp [haf]
      · have hbf : b.isFile = true := by rw [← hfab]; exact haf
        have hcf : c.isFile = true := by rw [← hfbc]; exact hbf
        simp only [haf, hbf, hcf] at h1 h2 ⊢
        simp at h1 h2 ⊢
        omega
    · rw [if_neg hd, if_neg hs] at h1 h2 ⊢
      rw [localeCompare_le_iff] at h1 h2 ⊢
      exact le_trans h1 h2

/-- The comparator on a same-kind pair is the (possibly `desc`-negated)
key comparison. -/
theorem cmpEntries_same_kind (sortBy order : String) {a b : FSTree}
    (h : a.isDirectory = b.isDirectory) :
    cmpEntries sortBy order a b
      = (if order = "desc" then -(keyCompare sortBy a b) else keyCompare sortBy a b) := by
  rw [cmpEntries, h]
  cases hb : b.isDirectory <;> simp

/-- The comparator puts a directory strictly before a file, for every key
and order. -/
theorem cmpEntries_dir_file (sortBy order : String) {a b : FSTree}
    (ha : a.isDirectory = true) (hb : b.isDirectory = false) :
    cmpEntries sortBy order a b = -1 := by
  rw [cmpEntries]
  simp [ha, hb]

/-- The comparator puts a file strictly after a directory, for every key
and order. -/
theorem cmpEntries_file_dir (sortBy order : String) {a b : FSTree}
    (ha : a.isDirectory = false) (hb : b.isDirectory = true) :
    cmpEntries sortBy order a b = 1 := by
  rw [cmpEntries]
  simp [ha, hb]

/-- The `desc`-aware key comparison is transitive along a same-kind chain. -/
theorem keyCompare_desc_le_trans (sortBy order : String) {a b c : FSTree}
    (hab : a.isDirectory = b.isDirectory) (hbc : b.isDirectory = c.isDirectory)
    (h1 : (if order = "desc" then -(keyCompare sortBy a b) else keyCompare sortBy a b) ≤ 0)
    (h2 : (if order = "desc" then -(keyCompare sortBy b c) else keyCompare sortBy b c) ≤ 0) :
    (if order = "desc" then -(keyCompare sortBy a c) else keyCompare sortBy a c) ≤ 0 := by
  by_cases hdesc : order = "desc"
  · rw [if_pos hdesc] at h1 h2 ⊢
    have g1 : keyCompare sortBy b a ≤ 0 := by
      have := keyCompare_antisymm sortBy a b
      omega
    have g2 : keyCompare sortBy c b ≤ 0 := by
      have := keyCompare_antisymm sortBy b c
      omega
    have g3 := keyCompare_le_trans sortBy hbc.symm hab.symm g2 g1
    have := keyCompare_antisymm sortBy a c
    omega
  · rw [if_neg hdesc] at h1 h2 ⊢
    exact keyCompare_le_trans sortBy hab hbc h1 h2

/-- `cmpEntries ≤ 0` is transitive. -/
theorem cmpEntries_le_trans (sortBy order : String) (a b c : FSTree)
    (h1 : cmpEntries sortBy order a b ≤ 0)
    (h2 : cmpEntries sortBy order b c ≤ 0) :
    cmpEntries sortBy order a c ≤ 0 := by
  cases ha : a.isDirectory <;> cases hb : b.isDirectory <;> cases hc : c.isDirectory
  · rw [cmpEntries_same_kind sortBy order (ha.trans hb.symm)] at h1
    rw [cmpEntries_same_kind sortBy order (hb.trans hc.symm)] at h2
    rw [cmpEntries_same_kind sortBy order (ha.trans hc.symm)]
    exact keyCompare_desc_le_trans sortBy order (ha.trans hb.symm) (hb.trans hc.symm) h1 h2
  · rw [cmpEntries_file_dir sortBy order hb hc] at h2
    omega
  · rw [cmpEntries_file_dir sortBy order ha hb] at h1
    omega
  · rw [cmpEntries_file_dir sortBy order ha hb] at h1
    omega
  · rw [cmpEntries_dir_file sortBy order ha hc]
    omega
  · rw [cmpEntries_file_dir sortBy order hb hc] at h2
    omega
  · rw [cmpEntries_dir_file sortBy order ha hc]
    omega
  · rw [cmpEntries_same_kind sortBy order (ha.trans hb.symm)] at h1
    rw [cmpEntries_same_kind sortBy order (hb.trans hc.symm)] at h2
    rw [cmpEntries_same_kind sortBy order (ha.trans hc.symm)]
    exact keyCompare_desc_le_trans sortBy order (ha.trans hb.symm) (hb.trans hc.symm) h1 h2

/-- `cmpEntries ≤ 0` is total. -/
theorem cmpEntries_le_total (sortBy order : String) (a b : FSTree) :
    cmpEntries sortBy order a b ≤ 0 ∨ cmpEntries sortBy order b a ≤ 0 := by
  cases ha : a.isDirectory <;> cases hb : b.isDirectory
  · rw [cmpEntries_same_kind sortBy order (ha.trans hb.symm),
      cmpEntries_same_kind sortBy order (hb.trans ha.symm)]
    have := keyCompare_antisymm sortBy a b
    by_cases hdesc : order = "desc" <;> simp [hdesc] <;> omega
  · rw [cmpEntries_file_dir sortBy order ha hb,
      cmpEntries_dir_file sortBy order hb ha]
    right
    omega
  · rw [cmpEntries_dir_file sortBy order ha hb]
    left
    omega
  · rw [cmpEntries_same_kind sortBy order (ha.trans hb.symm),
      cmpEntries_same_kind sortBy order (hb.trans ha.symm)]
    have := keyCompare_antisymm sortBy a b
    by_cases hdesc : order = "desc" <;> simp [hdesc] <;> omega

/-- C8: at any directory level (the sort `getDirectoryTree` applies to each
filtered child list), the sorted output is a permutation of its input in
which (1) every directory entry precedes every file entry, for every sort
key and order, and (2) among entries of the same kind the ordering follows
the requested key comparison — timestamps for `date`, byte lengths for
`size` (directories never compared by size), locale-aware name comparison
otherwise — reversed when `order = "desc"`. -/
theorem sortEntries_directories_first_key_order (sortBy order : String)
    (l : List FSTree) :
    (sortEntries sortBy order l).Perm l
      ∧ (sortEntries sortBy order l).Pairwise
          (fun a b => b.isDirectory = true → a.isDirectory = true)
      ∧ (sortEntries sortBy order l).Pairwise
          (fun a b => a.isDirectory = b.isDirectory →
            (if order = "desc" then keyCompare sortBy b a ≤ 0
              else keyCompare sortBy a b ≤ 0)) := by
  haveI htot : IsTotal FSTree (fun a b => cmpEntries sortBy order a b ≤ 0) :=
    ⟨cmpEntries_le_total sortBy order⟩
  haveI htr : IsTrans FSTree (fun a b => cmpEntries sortBy order a b ≤ 0) :=
    ⟨cmpEntries_le_trans sortBy order⟩
  have hsorted :=
    List.sorted_insertionSort (fun a b => cmpEntries sortBy order a b ≤ 0) l
  rw [List.Sorted] at hsorted
  simp only [sortEntries]
  refine ⟨List.perm_insertionSort _ l, ?_, ?_⟩
  · refine hsorted.imp ?_
    intro a b hab hbdir
    by_contra hadir
    have ha : a.isDirectory = false := by
      cases h : a.isDirectory
      · rfl
      · exact absurd h hadir
    rw [cmpEntries_file_dir sortBy order ha hbdir] at hab
    omega
  · refine hsorted.imp ?_
    intro a b hab hk
    rw [cmpEntries_same_kind sortBy order hk] at hab
    by_cases hdesc : order = "desc"
    · rw [if_pos hdesc] at hab ⊢
      have := keyCompare_antisymm sortBy a b
      omega
    · rw [if_neg hdesc] at hab ⊢
      exact hab

/- ================ C9: getDirectoryTree rendering ================ -/

/-- `utils.getExtension` (part_005 lines 243-247): the substring after the
last dot of the name, lowercased; empty when there is no dot. -/
def getExtension (fileName : String) : String :=
  let parts := fileName.splitOn "."
  if parts.length ≤ 1 then "" else strToLower (parts.getLastD "")

/-- `String.prototype.includes`: substring containment. -/
def strContains (s sub : String) : Bool := decide (sub.toList <:+: s.toList)

/-- The fixed binary-extension exclusion list of `getDirectoryTree`
(part_005 lines 330-338). -/
def BINARY_EXTENSIONS : List String :=
  ["png", "jpg", "jpeg", "gif", "bmp", "tiff", "webp",
   "mp3", "wav", "ogg", "flac", "aac",
   "mp4", "avi", "mkv", "mov", "wmv",
   "zip", "rar", "7z", "tar", "gz",
   "pdf", "doc", "docx", "ppt", "pptx", "xls", "xlsx", "hwp",
   "exe", "apk", "dmg", "iso",
   "db", "sqlite", "sqlite3"]

/-- `options.search` after the normalization prologue of `getDirectoryTree`:
regexes arrive compiled (the claim presumes valid patterns; an invalid one
takes the early sentinel return, before any of the behaviour modelled here),
extensions arrive as a lowercased list, and a JS-falsy (absent or empty)
string filter is `none`. -/
structure SearchOpts where
  sname : Option String := none
  regex : Option (String → Bool) := none
  extension : Option (List String) := none
  content : Option String := none
  contentRegex : Option (String → Bool) := none

/-- `options.sort` with its defaults applied (`by='name'`, `order='asc'`). -/
structure SortOpts where
  sortBy : String := "name"
  order : String := "asc"

/-- `getDirectoryTree`'s options after default application. -/
structure TreeOpts where
  detail : Bool := false
  showEmptyFolders : Bool := false
  search : SearchOpts := {}
  sort : SortOpts := {}

/-- A file node's content (`FileStream.read` of an existing file in the
snapshot; the directory case is never used). -/
def FSTree.contentD : FSTree → String
  | .file _ c _ => c
  | .dir _ _ _ _ => ""

/-- The file filter of `getDirectoryTree` (part_005 lines 387-411):
directories always pass; files must pass extension membership, name
substring (case-insensitive), name regex, and — only when a content filter
is configured — must not have a binary extension and must match the content
regex (which takes precedence) or contain the content substring. -/
def passesFilter (search : SearchOpts) (t : FSTree) : Bool :=
  if t.isDirectory then true
  else
    let itemName := t.name
    let itemNameLower := strToLower itemName
    let extension := getExtension itemName
    if (match search.extension with
        | some exts => !(exts.contains extension)
        | none => false) then false
    else if (match search.sname with
        | some q => !(strContains itemNameLower (strToLower q))
        | none => false) then false
    else if (match search.regex with
        | some rx => !(rx itemName)
        | none => false) then false
    else if !(search.content.isSome || search.contentRegex.isSome) then true
    else if BINARY_EXTENSIONS.contains extension then false
    else
      match search.contentRegex with
      | some crx => crx t.contentD
      | none =>
        match search.content with
        | some q => strContains t.contentD q
        | none => false

/-- `'│  '.repeat(n)`. -/
def repeatStr (s : String) : Nat → String
  | 0 => ""
  | n + 1 => s ++ repeatStr s n

/-- The per-line prefix (part_005 line 440): depth-1 continuation columns
then the branch or terminal glyph. -/
def linePrefix (depth : Nat) (isLast : Bool) : String :=
  repeatStr "│  " (depth - 1) ++ (if isLast then "└ " else "├ ")

/-- The `detail=true` suffix of a file line (part_005 line 453). -/
def detailSuffix (t : FSTree) : String :=
  " (" ++ (getMetadata t).readableSize ++ " / "
    ++ (getMetadata t).readableLastModified ++ ")"

/-- `sizeOf` of a filtered list never exceeds the original's. -/
theorem sizeOf_filter_le (p : FSTree → Bool) (l : List FSTree) :
    sizeOf (l.filter p) ≤ sizeOf l := by
  induction l with
  | nil => simp
  | cons c rest ih =>
    rw [List.filter_cons]
    by_cases h : p c = true
    · simp only [h, if_true, List.cons.sizeOf_spec]
      omega
    · have heq : (if p c = true then c :: List.filter p rest else List.filter p rest)
          = List.filter p rest := if_neg h
      rw [heq]
      simp only [List.cons.sizeOf_spec]
      omega

/-- Sorting preserves `sizeOf` (it permutes the list). -/
theorem sizeOf_sortEntries (sortBy order : String) (l : List FSTree) :
    sizeOf (sortEntries sortBy order l) = sizeOf l :=
  (List.perm_insertionSort _ l).sizeOf_eq_sizeOf

mutual

/-- The recursive `traverse` closure of `getDirectoryTree` (part_005 lines
380-460): list the children (a file has none), filter, sort, then render
each kept entry. -/
def traverseTree (opts : TreeOpts) : FSTree → Nat → List String
  | .file _ _ _, _ => []
  | .dir _ _ _ cs, depth =>
    renderLevel opts depth
      (sortEntries opts.sort.sortBy opts.sort.order
        (cs.filter (fun c => passesFilter opts.search c)))
termination_by t _ => sizeOf t
decreasing_by
  rename_i cs _
  simp only [FSTree.dir.sizeOf_spec]
  have h1 := sizeOf_filter_le (fun c => passesFilter opts.search c) cs
  have h2 := sizeOf_sortEntries opts.sort.sortBy opts.sort.order
    (cs.filter (fun c => passesFilter opts.search c))
  omega

/-- The rendering loop over one sorted level (part_005 lines 438-458):
a directory line is emitted only when its rendered subtree is non-empty or
`showEmptyFolders` is set; a file line gets the `detail` suffix when asked. -/
def renderLevel (opts : TreeOpts) (depth : Nat) : List FSTree → List String
  | [] => []
  | item :: rest =>
    (match item with
      | .file nm c lm =>
        [linePrefix depth rest.isEmpty ++ nm
          ++ (if opts.detail then detailSuffix (.file nm c lm) else "")]
      | .dir nm ol lm ccs =>
        let childLines := traverseTree opts (.dir nm ol lm ccs) (depth + 1)
        if childLines.length > 0 || opts.showEmptyFolders
        then (linePrefix depth rest.isEmpty ++ nm ++ "/") :: childLines
        else [])
      ++ renderLevel opts depth rest
termination_by cs => sizeOf cs
decreasing_by
  all_goals simp only [List.cons.sizeOf_spec, FSTree.dir.sizeOf_spec]
  all_goals omega

end

/-- `[file.getName() + '/'].concat(treeLines).join('\n')`. -/
def joinLines : List String → String
  | [] => ""
  | [x] => x
  | x :: y :: rest => x ++ "\n" ++ joinLines (y :: rest)

/-- `FileManager.prototype.getDirectoryTree` (part_005 lines 316-469) on a
resolved node with valid (pre-compiled) patterns: `null` unless the node is
an existing directory; otherwise the root's own name plus `/`, followed by
the rendered, filtered, sorted subtree, joined with newlines. -/
def getDirectoryTree (t : FSTree) (opts : TreeOpts) : Option String :=
  match t with
  | .file _ _ _ => none
  | .dir nm ol lm cs =>
    some (joinLines ((nm ++ "/") :: traverseTree opts (.dir nm ol lm cs) 1))

/-- Every string starts with itself. -/
theorem strStartsWith_self (a : String) : strStartsWith a a = true := by
  rw [strStartsWith, List.isPrefixOf_iff_prefix]

/-- A concatenation starts with its first part. -/
theorem strStartsWith_append (a b : String) : strStartsWith (a ++ b) a = true := by
  rw [strStartsWith, List.isPrefixOf_iff_prefix]
  have h : (a ++ b).toList = a.toList ++ b.toList := by simp
  rw [h]
  exact List.prefix_append _ _

/-- C9: for every existing directory root and any options (valid patterns),
the rendered tree exists and its first line is the root directory's own name
followed by `/` — the output either is exactly that line, or continues with
a newline after it; and when no child passes the file filters (directories
always pass, so this means every child is a file failing them), the whole
output collapses to that single root line, whatever `showEmptyFolders` or
any other option says. -/
theorem getDirectoryTree_root_first_line (opts : TreeOpts) (nm : String)
    (ol : Nat) (lm : Int) (cs : List FSTree) :
    ∃ s, getDirectoryTree (.dir nm ol lm cs) opts = some s
      ∧ strStartsWith s (nm ++ "/") = true
      ∧ (s = nm ++ "/" ∨ strStartsWith s (nm ++ "/" ++ "\n") = true)
      ∧ ((∀ c ∈ cs, passesFilter opts.search c = false) → s = nm ++ "/") := by
  refine ⟨joinLines ((nm ++ "/")
      :: traverseTree opts (.dir nm ol lm cs) 1), ?_, ?_, ?_, ?_⟩
  · rw [getDirectoryTree]
  · cases hL : traverseTree opts (.dir nm ol lm cs) 1 with
    | nil =>
      rw [joinLines]
      exact strStartsWith_self _
    | cons y rest =>
      rw [joinLines, String.append_assoc]
      exact strStartsWith_append _ _
  · cases hL : traverseTree opts (.dir nm ol lm cs) 1 with
    | nil =>
      left
      rw [joinLines]
    | cons y rest =>
      right
      rw [joinLines]
      exact strStartsWith_append _ _
  · intro h
    have hfil : cs.filter (fun c => passesFilter opts.search c) = [] := by
      rw [List.filter_eq_nil_iff]
      intro a ha
      simp [h a ha]
    have hL : traverseTree opts (.dir nm ol lm cs) 1 = [] := by
      rw [traverseTree, hfil]
      rw [show sortEntries opts.sort.sortBy opts.sort.order [] = [] from rfl]
      rw [renderLevel]
    rw [hL, joinLines]

/- ================= C5: zip / unzip round trip ================= -/

/-- One archive entry as `zip` writes it: a directory marker (a `ZipEntry`
whose name ends in `/`) or a file entry with its byte content. Entry names
are slash-separated paths relative to the packed root, modelled as segment
lists. -/
inductive ZipEntry where
  | dirMarker (path : List String)
  | fileEntry (path : List String) (content : String)
deriving DecidableEq, Repr

/-- `zip`'s `onFile` visitor (part_005 lines 735-747): write an entry named
by the file's path relative to the source root, with the file's bytes. -/
def zipOnFile : List String → FSTree → List ZipEntry → List ZipEntry :=
  fun p t acc => acc ++ [.fileEntry p t.contentD]

/-- `zip`'s `onDir` visitor (part_005 lines 724-734): only for a directory
with no children (listing null or empty), write a marker entry named by its
relative path plus `/` — unless that path is empty (the root itself,
excluded by the `entryName.length > 1` guard). -/
def zipOnDir : List String → FSTree → List ZipEntry → List ZipEntry :=
  fun p t acc =>
    if t.children.isEmpty then
      (if p = [] then acc else acc ++ [.dirMarker p])
    else acc

/-- The directory branch of `zip` (part_005 lines 717-753): pre-order
traversal from the source root with the two visitors, collecting entries in
stream order. -/
def zipDir (t : FSTree) : List ZipEntry :=
  traverseDirectory zipOnFile zipOnDir .pre t []

/-- `FileManager.prototype.zip` (part_005 lines 684-780), entry content: a
single-file source yields one entry named after the file (its full name,
part_005 lines 754-764); a directory source yields the traversal's
entries. -/
def zipArchive : FSTree → List ZipEntry
  | .file nm c _ => [.fileEntry [nm] c]
  | .dir nm ol lm cs => zipDir (.dir nm ol lm cs)

mutual

/-- Specification-side entry list of the subtree whose own relative path is
`q` (the root of the archive is `q = []`): a file contributes its file
entry, a childless directory its marker (except the root), a non-empty
directory only its children's entries. -/
def entriesOfNode : List String → FSTree → List ZipEntry
  | q, .file _ c _ => [.fileEntry q c]
  | q, .dir _ _ _ cs =>
    if cs.isEmpty then (if q = [] then [] else [.dirMarker q])
    else entriesOfList q cs
termination_by _ t => sizeOf t
decreasing_by
  all_goals simp only [FSTree.dir.sizeOf_spec, List.cons.sizeOf_spec]
  all_goals omega

/-- `entriesOfNode` over a sibling list (parent path `q`). -/
def entriesOfList : List String → List FSTree → List ZipEntry
  | _, [] => []
  | q, c :: rest => entriesOfNode (q ++ [c.name]) c ++ entriesOfList q rest
termination_by _ cs => sizeOf cs
decreasing_by
  all_goals simp only [FSTree.dir.sizeOf_spec, List.cons.sizeOf_spec]
  all_goals omega

end

mutual

/-- Relative paths and contents of every file in the subtree at `q`. -/
def filesOfNode : List String → FSTree → List (List String × String)
  | q, .file _ c _ => [(q, c)]
  | q, .dir _ _ _ cs => filesOfList q cs
termination_by _ t => sizeOf t
decreasing_by
  all_goals simp only [FSTree.dir.sizeOf_spec, List.cons.sizeOf_spec]
  all_goals omega

/-- `filesOfNode` over a sibling list. -/
def filesOfList : List String → List FSTree → List (List String × String)
  | _, [] => []
  | q, c :: rest => filesOfNode (q ++ [c.name]) c ++ filesOfList q rest
termination_by _ cs => sizeOf cs
decreasing_by
  all_goals simp only [FSTree.dir.sizeOf_spec, List.cons.sizeOf_spec]
  all_goals omega

end

mutual

/-- Relative paths of every directory in the subtree at `q` (the subtree
root included when it is a directory). -/
def dirPathsOfNode : List String → FSTree → List (List String)
  | _, .file _ _ _ => []
  | q, .dir _ _ _ cs => q :: dirPathsOfList q cs
termination_by _ t => sizeOf t
decreasing_by
  all_goals simp only [FSTree.dir.sizeOf_spec, List.cons.sizeOf_spec]
  all_goals omega

/-- `dirPathsOfNode` over a sibling list. -/
def dirPathsOfList : List String → List FSTree → List (List String)
  | _, [] => []
  | q, c :: rest => dirPathsOfNode (q ++ [c.name]) c ++ dirPathsOfList q rest
termination_by _ cs => sizeOf cs
decreasing_by
  all_goals simp only [FSTree.dir.sizeOf_spec, List.cons.sizeOf_spec]
  all_goals omega

end

mutual

/-- Relative paths of every childless directory in the subtree at `q`. -/
def emptyDirsOfNode : List String → FSTree → List (List String)
  | _, .file _ _ _ => []
  | q, .dir _ _ _ cs => if cs.isEmpty then [q] else emptyDirsOfList q cs
termination_by _ t => sizeOf t
decreasing_by
  all_goals simp only [FSTree.dir.sizeOf_spec, List.cons.sizeOf_spec]
  all_goals omega

/-- `emptyDirsOfNode` over a sibling list. -/
def emptyDirsOfList : List String → List FSTree → List (List String)
  | _, [] => []
  | q, c :: rest => emptyDirsOfNode (q ++ [c.name]) c ++ emptyDirsOfList q rest
termination_by _ cs => sizeOf cs
decreasing_by
  all_goals simp only [FSTree.dir.sizeOf_spec, List.cons.sizeOf_spec]
  all_goals omega

end

/-- The marker paths of an entry list, in order. -/
def markerPaths : List ZipEntry → List (List String)
  | [] => []
  | .dirMarker p :: rest => p :: markerPaths rest
  | .fileEntry _ _ :: rest => markerPaths rest

/-- The file entries of an entry list, in order. -/
def fileEntries : List ZipEntry → List (List String × String)
  | [] => []
  | .dirMarker _ :: rest => fileEntries rest
  | .fileEntry p c :: rest => (p, c) :: fileEntries rest

/-- The destination state `unzip` builds: directories created (by markers
or as parents of files) and file contents written, both by path relative to
the destination root. -/
structure UnzipState where
  dirs : List (List String)
  files : List (List String × String)
deriving DecidableEq, Repr

/-- The non-empty prefixes of a path: the chain of directories
`File.mkdirs` creates (those that exist already are unchanged — recorded
paths are read as a set). -/
def nonemptyPrefixes (p : List String) : List (List String) :=
  (List.range p.length).map (fun k => p.take (k + 1))

/-- A directory-marker entry: `newFile.mkdirs()` (part_005 lines 838-841). -/
def mkdirsU (p : List String) (s : UnzipState) : UnzipState :=
  { s with dirs := s.dirs ++ nonemptyPrefixes p }

/-- A file entry: `parent.mkdirs()` then stream the bytes, overwriting any
file already at that path (part_005 lines 842-853). -/
def writeFileU (p : List String) (c : String) (s : UnzipState) : UnzipState :=
  { dirs := s.dirs ++ nonemptyPrefixes p.dropLast
    files := s.files.filter (fun f => f.1 ≠ p) ++ [(p, c)] }

/-- One iteration of `unzip`'s entry loop, for an entry that passed the
Zip-Slip check (every relative segment path does — the check itself is the
subject of C2). -/
def unzipEntry (s : UnzipState) (e : ZipEntry) : UnzipState :=
  match e with
  | .dirMarker p => mkdirsU p s
  | .fileEntry p c => writeFileU p c s

/-- `unzip`'s entry loop over a whole archive. -/
def unzipEntries (es : List ZipEntry) (s : UnzipState) : UnzipState :=
  es.foldl unzipEntry s

/-- `FileManager.prototype.unzip` (part_005 lines 788-871) into an empty,
freshly created destination directory. -/
def unzipArchive (es : List ZipEntry) : UnzipState :=
  unzipEntries es { dirs := [], files := [] }

/-- The directory paths one entry causes to exist. -/
def dirsAdded : ZipEntry → List (List String)
  | .dirMarker p => nonemptyPrefixes p
  | .fileEntry p _ => nonemptyPrefixes p.dropLast

/-- `d` is an empty directory of the destination state: it was created, no
created directory lies strictly below it, and no written file lies strictly
below it. -/
def isEmptyDirIn (s : UnzipState) (d : List String) : Prop :=
  d ∈ s.dirs ∧ (∀ d1 ∈ s.dirs, ¬ (d <+: d1 ∧ d ≠ d1))
    ∧ (∀ f ∈ s.files, ¬ (d <+: f.1 ∧ d ≠ f.1))

/-- The zip walker appends the specification entry list (sibling form). -/
theorem walkList_zip (cs : List FSTree)
    (h : ∀ c ∈ cs, ∀ q acc, walkNode zipOnFile zipOnDir .pre q c acc
      = acc ++ entriesOfNode q c) :
    ∀ q acc, walkList zipOnFile zipOnDir .pre q cs acc
      = acc ++ entriesOfList q cs := by
  induction cs with
  | nil =>
    intro q acc
    rw [walkList_nil, entriesOfList, List.append_nil]
  | cons c rest ih =>
    intro q acc
    rw [walkList_cons, h c (by simp), ih (fun c hc => h c (by simp [hc])),
      entriesOfList, List.append_assoc]

/-- The zip walker appends the specification entry list. -/
theorem walkNode_zip :
    ∀ (t : FSTree) (q : List String) (acc : List ZipEntry),
      walkNode zipOnFile zipOnDir .pre q t acc = acc ++ entriesOfNode q t := by
  intro t
  induction t using FSTree.inductionOn with
  | hf n c lm =>
    intro q acc
    rw [walkNode_file, entriesOfNode]
    rfl
  | hd n ol lm cs ih =>
    intro q acc
    rw [walkNode_dir_pre, walkList_zip cs ih]
    cases cs with
    | nil =>
      by_cases hq : q = [] <;>
        simp [hq, zipOnDir, FSTree.children, entriesOfNode, entriesOfList]
    | cons c rest =>
      simp [zipOnDir, FSTree.children, entriesOfNode]

/-- The archive of a directory source is the specification entry list over
its children. -/
theorem zipArchive_dir (nm : String) (ol : Nat) (lm : Int) (cs : List FSTree) :
    zipArchive (.dir nm ol lm cs) = entriesOfList [] cs := by
  rw [zipArchive, zipDir, traverseDirectory, walkNode_zip, List.nil_append]
  cases cs with
  | nil => simp [entriesOfNode, entriesOfList]
  | cons c rest => simp [entriesOfNode]

/-- `markerPaths` distributes over append. -/
theorem markerPaths_append (l1 l2 : List ZipEntry) :
    markerPaths (l1 ++ l2) = markerPaths l1 ++ markerPaths l2 := by
  induction l1 with
  | nil => simp [markerPaths]
  | cons e rest ih =>
    cases e with
    | dirMarker p => rw [List.cons_append, markerPaths, markerPaths, ih, List.cons_append]
    | fileEntry p c => rw [List.cons_append, markerPaths, markerPaths, ih]

/-- `fileEntries` distributes over append. -/
theorem fileEntries_append (l1 l2 : List ZipEntry) :
    fileEntries (l1 ++ l2) = fileEntries l1 ++ fileEntries l2 := by
  induction l1 with
  | nil => simp [fileEntries]
  | cons e rest ih =>
    cases e with
    | dirMarker p => rw [List.cons_append, fileEntries, fileEntries, ih]
    | fileEntry p c => rw [List.cons_append, fileEntries, fileEntries, ih, List.cons_append]

/-- The markers of a sibling list's entries are exactly its empty-directory
paths. -/
theorem markerPaths_entriesOfList (cs : List FSTree)
    (h : ∀ c ∈ cs, ∀ q, q ≠ [] →
      markerPaths (entriesOfNode q c) = emptyDirsOfNode q c) :
    ∀ q, markerPaths (entriesOfList q cs) = emptyDirsOfList q cs := by
  induction cs with
  | nil =>
    intro q
    rw [entriesOfList, emptyDirsOfList, markerPaths]
  | cons c rest ih =>
    intro q
    rw [entriesOfList, emptyDirsOfList, markerPaths_append,
      h c (by simp) (q ++ [c.name]) (by simp),
      ih (fun c hc => h c (by simp [hc])) q]

/-- The markers of the subtree's entries are exactly its empty-directory
paths (node form; `q` is never empty below the root). -/
theorem markerPaths_entriesOfNode :
    ∀ (t : FSTree) (q : List String), q ≠ [] →
      markerPaths (entriesOfNode q t) = emptyDirsOfNode q t := by
  intro t
  induction t using FSTree.inductionOn with
  | hf n c lm =>
    intro q _
    rw [entriesOfNode, emptyDirsOfNode, markerPaths, markerPaths]
  | hd n ol lm cs ih =>
    intro q hq
    rw [entriesOfNode, emptyDirsOfNode]
    cases cs with
    | nil => simp [hq, markerPaths]
    | cons c rest =>
      simp only [List.isEmpty_cons, if_false, Bool.false_eq_true]
      exact markerPaths_entriesOfList (c :: rest) ih q

/-- The file entries of a sibling list's entries are exactly its file
paths and contents. -/
theorem fileEntries_entriesOfList (cs : List FSTree)
    (h : ∀ c ∈ cs, ∀ q, q ≠ [] →
      fileEntries (entriesOfNode q c) = filesOfNode q c) :
    ∀ q, fileEntries (entriesOfList q cs) = filesOfList q cs := by
  induction cs with
  | nil =>
    intro q
    rw [entriesOfList, filesOfList, fileEntries]
  | cons c rest ih =>
    intro q
    rw [entriesOfList, filesOfList, fileEntries_append,
      h c (by simp) (q ++ [c.name]) (by simp),
      ih (fun c hc => h c (by simp [hc])) q]

/-- The file entries of the subtree's entries are exactly its file paths
and contents (node form). -/
theorem fileEntries_entriesOfNode :
    ∀ (t : FSTree) (q : List String), q ≠ [] →
      fileEntries (entriesOfNode q t) = filesOfNode q t := by
  intro t
  induction t using FSTree.inductionOn with
  | hf n c lm =>
    intro q _
    rw [entriesOfNode, filesOfNode, fileEntries, fileEntries]
  | hd n ol lm cs ih =>
    intro q hq
    rw [entriesOfNode, filesOfNode]
    cases cs with
    | nil => simp [hq, fileEntries, filesOfList]
    | cons c rest =>
      simp only [List.isEmpty_cons, if_false, Bool.false_eq_true]
      exact fileEntries_entriesOfList (c :: rest) ih q

/-- Membership in `nonemptyPrefixes`: exactly the non-empty prefixes. -/
theorem mem_nonemptyPrefixes (d p : List String) :
    d ∈ nonemptyPrefixes p ↔ d ≠ [] ∧ d <+: p := by
  rw [nonemptyPrefixes]
  simp only [List.mem_map, List.mem_range]
  constructor
  · rintro ⟨k, hk, rfl⟩
    constructor
    · have hlen : (p.take (k + 1)).length = min (k + 1) p.length := by simp
      intro hnil
      rw [hnil] at hlen
      simp at hlen
      omega
    · exact List.take_prefix _ _
  · rintro ⟨hne, hpre⟩
    have hpos : 0 < d.length := List.length_pos.2 hne
    have hle : d.length ≤ p.length := hpre.length_le
    refine ⟨d.length - 1, by omega, ?_⟩
    have htake := List.prefix_iff_eq_take.1 hpre
    rw [show d.length - 1 + 1 = d.length from by omega]
    exact htake.symm

/-- Prefixes of `p.dropLast` are exactly the proper prefixes of `p`
(for non-empty `p`). -/
theorem prefix_dropLast_iff (d p : List String) (hp : p ≠ []) :
    d <+: p.dropLast ↔ (d <+: p ∧ d ≠ p) := by
  have hplen : 0 < p.length := List.length_pos.2 hp
  constructor
  · intro h
    have h2 : d <+: p := h.trans (List.dropLast_prefix p)
    refine ⟨h2, ?_⟩
    intro heq
    subst heq
    have := h.length_le
    rw [List.length_dropLast] at this
    omega
  · rintro ⟨hpre, hne⟩
    have hlt : d.length < p.length := by
      rcases Nat.lt_or_ge d.length p.length with h | h
      · exact h
      · exact absurd (hpre.eq_of_length (le_antisymm hpre.length_le h)) hne
    have h1 := List.prefix_iff_eq_take.1 hpre
    rw [List.dropLast_eq_take, h1]
    rw [List.take_isPrefix_take]
    omega

/-- The relative path stored in an entry. -/
def entryPath : ZipEntry → List String
  | .dirMarker p => p
  | .fileEntry p _ => p

/-- Every entry of the subtree at `q` has a path extending `q`. -/
theorem entriesOfNode_shape :
    ∀ (t : FSTree) (q : List String), ∀ e ∈ entriesOfNode q t, q <+: entryPath e := by
  intro t
  induction t using FSTree.inductionOn with
  | hf n c lm =>
    intro q e he
    rw [entriesOfNode] at he
    simp at he
    rw [he, entryPath]
  | hd n ol lm cs ih =>
    intro q e he
    rw [entriesOfNode] at he
    by_cases hcs : cs.isEmpty
    · rw [if_pos hcs] at he
      by_cases hq : q = []
      · rw [if_pos hq] at he
        simp at he
      · rw [if_neg hq] at he
        simp at he
        rw [he, entryPath]
    · rw [if_neg hcs] at he
      clear hcs
      induction cs with
      | nil => rw [entriesOfList] at he; simp at he
      | cons c rest ihr =>
        rw [entriesOfList] at he
        rcases List.mem_append.1 he with h1 | h1
        · have := ih c (by simp) (q ++ [c.name]) e h1
          exact (List.prefix_append q [c.name]).trans this
        · exact ihr (fun c hc => ih c (by simp [hc])) h1

/-- The subtree at a non-root path always contributes at least one entry. -/
theorem entriesOfNode_ne_nil :
    ∀ (t : FSTree) (q : List String), q ≠ [] → entriesOfNode q t ≠ [] := by
  intro t
  induction t using FSTree.inductionOn with
  | hf n c lm =>
    intro q _
    rw [entriesOfNode]
    simp
  | hd n ol lm cs ih =>
    intro q hq
    rw [entriesOfNode]
    cases cs with
    | nil => simp [hq]
    | cons c rest =>
      simp only [List.isEmpty_cons, if_false, Bool.false_eq_true]
      rw [entriesOfList]
      intro happ
      rcases List.append_eq_nil.1 happ with ⟨h1, _⟩
      exact ih c (by simp) (q ++ [c.name]) (by simp) h1

/-- Every directory path of the subtree at `q` extends `q`. -/
theorem dirPathsOfNode_shape :
    ∀ (t : FSTree) (q : List String), ∀ x ∈ dirPathsOfNode q t, q <+: x := by
  intro t
  induction t using FSTree.inductionOn with
  | hf n c lm =>
    intro q x hx
    rw [dirPathsOfNode] at hx
    simp at hx
  | hd n ol lm cs ih =>
    intro q x hx
    rw [dirPathsOfNode] at hx
    rcases List.mem_cons.1 hx with h | h
    · rw [h]
    · clear hx
      induction cs with
      | nil => rw [dirPathsOfList] at h; simp at h
      | cons c rest ihr =>
        rw [dirPathsOfList] at h
        rcases List.mem_append.1 h with h1 | h1
        · exact (List.prefix_append q [c.name]).trans (ih c (by simp) _ x h1)
        · exact ihr (fun c hc => ih c (by simp [hc])) h1

/-- List form of `dirPathsOfNode_shape`: the owning sibling is identified. -/
theorem dirPathsOfList_shape :
    ∀ (cs : List FSTree) (q : List String), ∀ x ∈ dirPathsOfList q cs,
      ∃ c ∈ cs, (q ++ [c.name]) <+: x := by
  intro cs
  induction cs with
  | nil =>
    intro q x hx
    rw [dirPathsOfList] at hx
    simp at hx
  | cons c rest ih =>
    intro q x hx
    rw [dirPathsOfList] at hx
    rcases List.mem_append.1 hx with h1 | h1
    · exact ⟨c, by simp, dirPathsOfNode_shape c _ x h1⟩
    · rcases ih q x h1 with ⟨c1, hc1, hp⟩
      exact ⟨c1, by simp [hc1], hp⟩

/-- Every file path of the subtree at `q` extends `q`. -/
theorem filesOfNode_shape :
    ∀ (t : FSTree) (q : List String), ∀ x ∈ filesOfNode q t, q <+: x.1 := by
  intro t
  induction t using FSTree.inductionOn with
  | hf n c lm =>
    intro q x hx
    rw [filesOfNode] at hx
    simp at hx
    rw [hx]
  | hd n ol lm cs ih =>
    intro q x hx
    rw [filesOfNode] at hx
    clear * - hx ih
    induction cs with
    | nil => rw [filesOfList] at hx; simp at hx
    | cons c rest ihr =>
      rw [filesOfList] at hx
      rcases List.mem_append.1 hx with h1 | h1
      · exact (List.prefix_append q [c.name]).trans (ih c (by simp) _ x h1)
      · exact ihr (fun c hc => ih c (by simp [hc])) h1

/-- List form of `filesOfNode_shape`. -/
theorem filesOfList_shape :
    ∀ (cs : List FSTree) (q : List String), ∀ x ∈ filesOfList q cs,
      ∃ c ∈ cs, (q ++ [c.name]) <+: x.1 := by
  intro cs
  induction cs with
  | nil =>
    intro q x hx
    rw [filesOfList] at hx
    simp at hx
  | cons c rest ih =>
    intro q x hx
    rw [filesOfList] at hx
    rcases List.mem_append.1 hx with h1 | h1
    · exact ⟨c, by simp, filesOfNode_shape c _ x h1⟩
    · rcases ih q x h1 with ⟨c1, hc1, hp⟩
      exact ⟨c1, by simp [hc1], hp⟩

/-- Every empty-directory path of the subtree is a directory path of it. -/
theorem emptyDirsOfNode_subset_dirPaths :
    ∀ (t : FSTree) (q : List String), ∀ x ∈ emptyDirsOfNode q t,
      x ∈ dirPathsOfNode q t := by
  intro t
  induction t using FSTree.inductionOn with
  | hf n c lm =>
    intro q x hx
    rw [emptyDirsOfNode] at hx
    simp at hx
  | hd n ol lm cs ih =>
    intro q x hx
    rw [emptyDirsOfNode] at hx
    rw [dirPathsOfNode]
    by_cases hcs : cs.isEmpty
    · rw [if_pos hcs] at hx
      simp at hx
      simp [hx]
    · rw [if_neg hcs] at hx
      right
      clear hcs
      induction cs with
      | nil => rw [emptyDirsOfList] at hx; simp at hx
      | cons c rest ihr =>
        rw [emptyDirsOfList] at hx
        rw [dirPathsOfList]
        rcases List.mem_append.1 hx with h1 | h1
        · exact List.mem_append.2 (Or.inl (ih c (by simp) _ x h1))
        · exact List.mem_append.2 (Or.inr (ihr (fun c hc => ih c (by simp [hc])) h1))

/-- List form of `emptyDirsOfNode_subset_dirPaths`. -/
theorem emptyDirsOfList_subset_dirPaths :
    ∀ (cs : List FSTree) (q : List String), ∀ x ∈ emptyDirsOfList q cs,
      x ∈ dirPathsOfList q cs := by
  intro cs
  induction cs with
  | nil =>
    intro q x hx
    rw [emptyDirsOfList] at hx
    simp at hx
  | cons c rest ih =>
    intro q x hx
    rw [emptyDirsOfList] at hx
    rw [dirPathsOfList]
    rcases List.mem_append.1 hx with h1 | h1
    · exact List.mem_append.2 (Or.inl (emptyDirsOfNode_subset_dirPaths c _ x h1))
    · exact List.mem_append.2 (Or.inr (ih q x h1))

/-- Each loop iteration appends exactly `dirsAdded` to the created
directories. -/
theorem unzipEntry_dirs (s : UnzipState) (e : ZipEntry) :
    (unzipEntry s e).dirs = s.dirs ++ dirsAdded e := by
  cases e with
  | dirMarker p => rfl
  | fileEntry p c => rfl

/-- Directory membership in the final state: a directory exists iff some
entry caused it. -/
theorem unzipEntries_dirs_mem (es : List ZipEntry) :
    ∀ (s : UnzipState) (d : List String),
      d ∈ (unzipEntries es s).dirs ↔ d ∈ s.dirs ∨ ∃ e ∈ es, d ∈ dirsAdded e := by
  induction es with
  | nil =>
    intro s d
    rw [unzipEntries, List.foldl_nil]
    simp
  | cons e rest ih =>
    intro s d
    rw [unzipEntries, List.foldl_cons, ← unzipEntries]
    rw [ih (unzipEntry s e) d]
    rw [show d ∈ (unzipEntry s e).dirs ↔ d ∈ s.dirs ∨ d ∈ dirsAdded e by
      rw [unzipEntry_dirs]; simp]
    simp only [List.mem_cons]
    constructor
    · rintro ((h | h) | ⟨e1, he1, hd1⟩)
      · exact Or.inl h
      · exact Or.inr ⟨e, Or.inl rfl, h⟩
      · exact Or.inr ⟨e1, Or.inr he1, hd1⟩
    · rintro (h | ⟨e1, (he1 | he1), hd1⟩)
      · exact Or.inl (Or.inl h)
      · rw [← he1]
        exact Or.inl (Or.inr hd1)
      · exact Or.inr ⟨e1, he1, hd1⟩

/-- The directories induced by a sibling list's entries: the non-empty
prefixes of the parent path (once the list is non-empty), plus the
directory paths of the subtrees. -/
theorem dirsAdded_entriesOfList (cs : List FSTree)
    (h : ∀ c ∈ cs, ∀ q, q ≠ [] → ∀ d,
      ((∃ e ∈ entriesOfNode q c, d ∈ dirsAdded e)
        ↔ ((d <+: q ∧ d ≠ [] ∧ d ≠ q) ∨ d ∈ dirPathsOfNode q c))) :
    ∀ q d, (∃ e ∈ entriesOfList q cs, d ∈ dirsAdded e)
      ↔ ((cs ≠ [] ∧ d <+: q ∧ d ≠ []) ∨ d ∈ dirPathsOfList q cs) := by
  induction cs with
  | nil =>
    intro q d
    rw [entriesOfList, dirPathsOfList]
    simp
  | cons c rest ih =>
    intro q d
    rw [entriesOfList, dirPathsOfList]
    have hA : (∃ e ∈ entriesOfNode (q ++ [c.name]) c, d ∈ dirsAdded e)
        ↔ ((d <+: q ∧ d ≠ []) ∨ d ∈ dirPathsOfNode (q ++ [c.name]) c) := by
      rw [h c (by simp) (q ++ [c.name]) (by simp) d]
      constructor
      · rintro (⟨hp, hne, hneq⟩ | hm)
        · left
          refine ⟨?_, hne⟩
          rcases List.prefix_concat_iff.1 hp with heq | hq2
          · exact absurd heq hneq
          · exact hq2
        · exact Or.inr hm
      · rintro (⟨hp, hne⟩ | hm)
        · left
          refine ⟨hp.trans (List.prefix_append q [c.name]), hne, ?_⟩
          intro heq
          rw [heq] at hp
          have := hp.length_le
          simp at this
        · exact Or.inr hm
    have hsplit : (∃ e ∈ entriesOfNode (q ++ [c.name]) c ++ entriesOfList q rest,
          d ∈ dirsAdded e)
        ↔ ((∃ e ∈ entriesOfNode (q ++ [c.name]) c, d ∈ dirsAdded e)
            ∨ (∃ e ∈ entriesOfList q rest, d ∈ dirsAdded e)) := by
      constructor
      · rintro ⟨e, he, hd1⟩
        rcases List.mem_append.1 he with h1 | h1
        · exact Or.inl ⟨e, h1, hd1⟩
        · exact Or.inr ⟨e, h1, hd1⟩
      · rintro (⟨e, he, hd1⟩ | ⟨e, he, hd1⟩)
        · exact ⟨e, List.mem_append.2 (Or.inl he), hd1⟩
        · exact ⟨e, List.mem_append.2 (Or.inr he), hd1⟩
    rw [hsplit, hA, ih (fun c hc => h c (by simp [hc]))]
    simp only [List.mem_append, ne_eq, List.cons_ne_nil, not_false_eq_true, true_and]
    tauto

/-- The directories induced by the subtree's entries: the strict non-empty
prefixes of the subtree's own path, plus its directory paths. -/
theorem dirsAdded_entriesOfNode :
    ∀ (t : FSTree) (q : List String), q ≠ [] → ∀ d,
      ((∃ e ∈ entriesOfNode q t, d ∈ dirsAdded e)
        ↔ ((d <+: q ∧ d ≠ [] ∧ d ≠ q) ∨ d ∈ dirPathsOfNode q t)) := by
  intro t
  induction t using FSTree.inductionOn with
  | hf n c lm =>
    intro q hq d
    rw [entriesOfNode, dirPathsOfNode]
    simp only [List.mem_singleton, List.not_mem_nil, or_false]
    constructor
    · rintro ⟨e, he, hd1⟩
      have he2 : e = ZipEntry.fileEntry q c := by simpa using he
      rw [he2] at hd1
      rw [dirsAdded, mem_nonemptyPrefixes] at hd1
      rcases hd1 with ⟨hne, hp⟩
      rcases (prefix_dropLast_iff d q hq).1 hp with ⟨h1, h2⟩
      exact ⟨h1, hne, h2⟩
    · rintro ⟨hp, hne, hneq⟩
      refine ⟨.fileEntry q c, by simp, ?_⟩
      rw [dirsAdded, mem_nonemptyPrefixes]
      exact ⟨hne, (prefix_dropLast_iff d q hq).2 ⟨hp, hneq⟩⟩
  | hd n ol lm cs ih =>
    intro q hq d
    rw [entriesOfNode, dirPathsOfNode]
    cases cs with
    | nil =>
      simp only [List.isEmpty_nil, if_true, if_neg hq, dirPathsOfList]
      constructor
      · rintro ⟨e, he, hd1⟩
        simp at he
        rw [he] at hd1
        rw [dirsAdded, mem_nonemptyPrefixes] at hd1
        rcases hd1 with ⟨hne, hp⟩
        by_cases heq : d = q
        · right
          simp [heq]
        · exact Or.inl ⟨hp, hne, heq⟩
      · intro hyp
        refine ⟨.dirMarker q, by simp, ?_⟩
        rw [dirsAdded, mem_nonemptyPrefixes]
        rcases hyp with ⟨hp, hne, _⟩ | hm
        · exact ⟨hne, hp⟩
        · have hdq : d = q := by simpa using hm
          subst hdq
          exact ⟨hq, List.prefix_refl d⟩
    | cons c rest =>
      simp only [List.isEmpty_cons, if_false, Bool.false_eq_true]
      rw [dirsAdded_entriesOfList (c :: rest) ih q d]
      simp only [ne_eq, List.cons_ne_nil, not_false_eq_true, true_and, List.mem_cons]
      by_cases heq : d = q
      · subst heq
        simp [List.prefix_refl, hq]
      · constructor
        · rintro (⟨hp, hne⟩ | hm)
          · exact Or.inl ⟨hp, hne, heq⟩
          · exact Or.inr (Or.inr hm)
        · rintro (⟨hp, hne, _⟩ | (hq2 | hm))
          · exact Or.inl ⟨hp, hne⟩
          · exact absurd hq2 heq
          · exact Or.inr hm

/-- In the destination, the created directories are exactly the source's
directory paths. -/
theorem unzipArchive_dirs_mem (cs : List FSTree) (d : List String) :
    d ∈ (unzipArchive (entriesOfList [] cs)).dirs ↔ d ∈ dirPathsOfList [] cs := by
  rw [unzipArchive, unzipEntries_dirs_mem]
  simp only [List.not_mem_nil, false_or]
  rw [dirsAdded_entriesOfList cs (fun c _ => dirsAdded_entriesOfNode c) [] d]
  constructor
  · rintro (⟨_, hp, hne⟩ | hm)
    · exact absurd (List.prefix_nil.1 hp) hne
    · exact hm
  · intro hm
    exact Or.inr hm

/-- Two one-segment extensions of the same path that are prefixes of the
same list share their extra segment. -/
theorem head_seg_eq {q x : List String} {a b : String}
    (ha : (q ++ [a]) <+: x) (hb : (q ++ [b]) <+: x) : a = b := by
  have h := List.prefix_of_prefix_length_le ha hb (by simp)
  have h2 := h.eq_of_length (by simp)
  simpa using List.append_cancel_left h2

/-- The entry loop writes exactly the archive's file entries, in order,
when the archive's file paths are distinct and fresh for the state. -/
theorem unzipEntries_files (es : List ZipEntry) :
    ∀ s : UnzipState,
      ((fileEntries es).map Prod.fst).Nodup →
      (∀ f ∈ s.files, ∀ p ∈ (fileEntries es).map Prod.fst, f.1 ≠ p) →
      (unzipEntries es s).files = s.files ++ fileEntries es := by
  induction es with
  | nil =>
    intro s _ _
    rw [unzipEntries, List.foldl_nil, fileEntries, List.append_nil]
  | cons e rest ih =>
    intro s hnd hdisj
    rw [unzipEntries, List.foldl_cons, ← unzipEntries]
    cases e with
    | dirMarker p =>
      rw [fileEntries] at hnd hdisj ⊢
      have hres := ih (unzipEntry s (.dirMarker p)) hnd (by
        intro f hf
        exact hdisj f (by simpa [unzipEntry, mkdirsU] using hf))
      simpa [unzipEntry, mkdirsU] using hres
    | fileEntry p c =>
      rw [fileEntries] at hnd hdisj ⊢
      have hmap : ((p, c) :: fileEntries rest).map Prod.fst
          = p :: (fileEntries rest).map Prod.fst := by simp
      rw [hmap] at hnd hdisj
      have hp_notin : p ∉ (fileEntries rest).map Prod.fst :=
        (List.nodup_cons.1 hnd).1
      have hnd2 : ((fileEntries rest).map Prod.fst).Nodup :=
        (List.nodup_cons.1 hnd).2
      have hfilter : s.files.filter (fun f => f.1 ≠ p) = s.files := by
        rw [List.filter_eq_self]
        intro f hf
        have := hdisj f hf p (by simp)
        simpa using this
      have hnew : (unzipEntry s (.fileEntry p c)).files = s.files ++ [(p, c)] := by
        have h0 : (unzipEntry s (.fileEntry p c)).files
            = s.files.filter (fun f => f.1 ≠ p) ++ [(p, c)] := rfl
        rw [h0, hfilter]
      have hdisj2 : ∀ f ∈ (unzipEntry s (.fileEntry p c)).files,
          ∀ p1 ∈ (fileEntries rest).map Prod.fst, f.1 ≠ p1 := by
        intro f hf p1 hp1
        rw [hnew] at hf
        rcases List.mem_append.1 hf with h1 | h1
        · exact hdisj f h1 p1 (by simp [hp1])
        · have hfp : f = (p, c) := by simpa using h1
          subst hfp
          show p ≠ p1
          intro heq
          rw [heq] at hp_notin
          exact hp_notin hp1
      have hres := ih (unzipEntry s (.fileEntry p c)) hnd2 hdisj2
      rw [hres, hnew, List.append_assoc]
      simp

/-- File paths of a sibling list are pairwise distinct in a well-formed
tree. -/
theorem filesOfList_nodup (cs : List FSTree)
    (h : ∀ c ∈ cs, wfB c = true → ∀ q, ((filesOfNode q c).map Prod.fst).Nodup) :
    ∀ q, nodupNames (cs.map FSTree.name) = true → wfChildren cs = true →
      ((filesOfList q cs).map Prod.fst).Nodup := by
  induction cs with
  | nil =>
    intro q _ _
    rw [filesOfList]
    simp
  | cons c rest ih =>
    intro q hnd hwf
    rw [wfChildren] at hwf
    rcases Bool.and_eq_true_iff.1 hwf with ⟨hwc, hwrest⟩
    rcases (nodupNames_cons _ _).1 (by simpa using hnd) with ⟨hcn, hndrest⟩
    rw [filesOfList, List.map_append]
    refine List.Nodup.append (h c (by simp) hwc _)
      (ih (fun c1 hc1 => h c1 (by simp [hc1])) q hndrest hwrest) ?_
    intro x hx1 hx2
    rcases List.mem_map.1 hx1 with ⟨f1, hf1, hxf1⟩
    rcases List.mem_map.1 hx2 with ⟨f2, hf2, hxf2⟩
    have hs1 := filesOfNode_shape c (q ++ [c.name]) f1 hf1
    rcases filesOfList_shape rest q f2 hf2 with ⟨c2, hc2, hs2⟩
    rw [hxf1] at hs1
    rw [hxf2] at hs2
    have hname : c.name = c2.name := head_seg_eq hs1 hs2
    exact not_mem_of_contains_false hcn
      (hname ▸ List.mem_map_of_mem FSTree.name hc2)

/-- File paths of a well-formed subtree are pairwise distinct. -/
theorem filesOfNode_nodup :
    ∀ (t : FSTree), wfB t = true → ∀ q,
      ((filesOfNode q t).map Prod.fst).Nodup := by
  intro t
  induction t using FSTree.inductionOn with
  | hf n c lm =>
    intro _ q
    rw [filesOfNode]
    simp
  | hd n ol lm cs ih =>
    intro hwf q
    rw [wfB] at hwf
    rcases Bool.and_eq_true_iff.1 hwf with ⟨hnd, hch⟩
    rw [filesOfNode]
    exact filesOfList_nodup cs (fun c hc => ih c hc) q hnd hch

/-- `wfChildren` gives well-formedness of each member. -/
theorem wfChildren_mem (cs : List FSTree) (h : wfChildren cs = true) :
    ∀ c ∈ cs, wfB c = true := by
  induction cs with
  | nil =>
    intro c hc
    simp at hc
  | cons c rest ih =>
    rw [wfChildren] at h
    rcases Bool.and_eq_true_iff.1 h with ⟨h1, h2⟩
    intro c1 hc1
    rcases List.mem_cons.1 hc1 with h3 | h3
    · rw [h3]
      exact h1
    · exact ih h2 c1 h3

/-- Empty-directory characterization over a sibling list: a path is an
empty-directory path iff it is a directory path with no directory and no
file strictly below it (within the list's subtrees). -/
theorem emptyDirs_iff_list (cs : List FSTree)
    (h : ∀ c ∈ cs, wfB c = true → ∀ q, q ≠ [] → ∀ d,
      (d ∈ emptyDirsOfNode q c ↔
        (d ∈ dirPathsOfNode q c
          ∧ (∀ d1 ∈ dirPathsOfNode q c, ¬ (d <+: d1 ∧ d ≠ d1))
          ∧ (∀ f ∈ filesOfNode q c, ¬ (d <+: f.1 ∧ d ≠ f.1))))) :
    ∀ q, nodupNames (cs.map FSTree.name) = true → wfChildren cs = true → ∀ d,
      (d ∈ emptyDirsOfList q cs ↔
        (d ∈ dirPathsOfList q cs
          ∧ (∀ d1 ∈ dirPathsOfList q cs, ¬ (d <+: d1 ∧ d ≠ d1))
          ∧ (∀ f ∈ filesOfList q cs, ¬ (d <+: f.1 ∧ d ≠ f.1)))) := by
  induction cs with
  | nil =>
    intro q _ _ d
    rw [emptyDirsOfList, dirPathsOfList]
    simp
  | cons c rest ih =>
    intro q hnd hwf d
    rw [wfChildren] at hwf
    rcases Bool.and_eq_true_iff.1 hwf with ⟨hwc, hwrest⟩
    rcases (nodupNames_cons _ _).1 (by simpa using hnd) with ⟨hcn, hndrest⟩
    rw [emptyDirsOfList, dirPathsOfList, filesOfList]
    have hsub : ∀ x ∈ rest, x ∈ c :: rest := fun x hx => by simp [hx]
    have hrest := ih (fun c1 hc1 => h c1 (hsub c1 hc1)) q hndrest hwrest d
    have hc := h c (by simp) hwc (q ++ [c.name]) (by simp) d
    constructor
    · intro hd
      rcases List.mem_append.1 hd with hA | hB
      · rcases hc.1 hA with ⟨hmem, hdirs, hfiles⟩
        have hshape : (q ++ [c.name]) <+: d := dirPathsOfNode_shape c _ d hmem
        refine ⟨List.mem_append.2 (Or.inl hmem), ?_, ?_⟩
        · intro d1 hd1
          rcases List.mem_append.1 hd1 with h1 | h1
          · exact hdirs d1 h1
          · rintro ⟨hp, _⟩
            rcases dirPathsOfList_shape rest q d1 h1 with ⟨c2, hc2, hs2⟩
            have hname : c.name = c2.name := head_seg_eq (hshape.trans hp) hs2
            exact not_mem_of_contains_false hcn
              (hname ▸ List.mem_map_of_mem FSTree.name hc2)
        · intro f hf
          rcases List.mem_append.1 hf with h1 | h1
          · exact hfiles f h1
          · rintro ⟨hp, _⟩
            rcases filesOfList_shape rest q f h1 with ⟨c2, hc2, hs2⟩
            have hname : c.name = c2.name := head_seg_eq (hshape.trans hp) hs2
            exact not_mem_of_contains_false hcn
              (hname ▸ List.mem_map_of_mem FSTree.name hc2)
      · rcases hrest.1 hB with ⟨hmem, hdirs, hfiles⟩
        have hshape : ∃ c2 ∈ rest, (q ++ [c2.name]) <+: d :=
          dirPathsOfList_shape rest q d hmem
        rcases hshape with ⟨c2, hc2, hs2⟩
        refine ⟨List.mem_append.2 (Or.inr hmem), ?_, ?_⟩
        · intro d1 hd1
          rcases List.mem_append.1 hd1 with h1 | h1
          · rintro ⟨hp, _⟩
            have hs1 : (q ++ [c.name]) <+: d1 := dirPathsOfNode_shape c _ d1 h1
            have hname : c.name = c2.name := head_seg_eq hs1 (hs2.trans hp)
            exact not_mem_of_contains_false hcn
              (hname ▸ List.mem_map_of_mem FSTree.name hc2)
          · exact hdirs d1 h1
        · intro f hf
          rcases List.mem_append.1 hf with h1 | h1
          · rintro ⟨hp, _⟩
            have hs1 : (q ++ [c.name]) <+: f.1 := filesOfNode_shape c _ f h1
            have hname : c.name = c2.name := head_seg_eq hs1 (hs2.trans hp)
            exact not_mem_of_contains_false hcn
              (hname ▸ List.mem_map_of_mem FSTree.name hc2)
          · exact hfiles f h1
    · rintro ⟨hmem, hdirs, hfiles⟩
      rcases List.mem_append.1 hmem with h1 | h1
      · refine List.mem_append.2 (Or.inl (hc.2 ⟨h1, ?_, ?_⟩))
        · intro d1 hd1
          exact hdirs d1 (List.mem_append.2 (Or.inl hd1))
        · intro f hf
          exact hfiles f (List.mem_append.2 (Or.inl hf))
      · refine List.mem_append.2 (Or.inr (hrest.2 ⟨h1, ?_, ?_⟩))
        · intro d1 hd1
          exact hdirs d1 (List.mem_append.2 (Or.inr hd1))
        · intro f hf
          exact hfiles f (List.mem_append.2 (Or.inr hf))

/-- Empty-directory characterization of a well-formed subtree: a path is an
empty-directory path iff it is a directory path with no directory and no
file strictly below it. -/
theorem emptyDirs_iff_node :
    ∀ (t : FSTree), wfB t = true → ∀ q, q ≠ [] → ∀ d,
      (d ∈ emptyDirsOfNode q t ↔
        (d ∈ dirPathsOfNode q t
          ∧ (∀ d1 ∈ dirPathsOfNode q t, ¬ (d <+: d1 ∧ d ≠ d1))
          ∧ (∀ f ∈ filesOfNode q t, ¬ (d <+: f.1 ∧ d ≠ f.1)))) := by
  intro t
  induction t using FSTree.inductionOn with
  | hf n c lm =>
    intro _ q _ d
    rw [emptyDirsOfNode, dirPathsOfNode]
    simp
  | hd n ol lm cs ih =>
    intro hwf q hq d
    rw [wfB] at hwf
    rcases Bool.and_eq_true_iff.1 hwf with ⟨hnd, hch⟩
    rw [emptyDirsOfNode, dirPathsOfNode, filesOfNode]
    cases cs with
    | nil =>
      simp only [List.isEmpty_nil, if_true, dirPathsOfList, filesOfList]
      constructor
      · intro hd
        have hdq : d = q := by simpa using hd
        subst hdq
        refine ⟨by simp, ?_, by simp⟩
        intro d1 hd1
        have : d1 = d := by simpa using hd1
        subst this
        rintro ⟨_, hne⟩
        exact hne rfl
      · rintro ⟨hmem, _, _⟩
        have : d = q := by simpa using hmem
        simp [this]
    | cons c rest =>
      simp only [List.isEmpty_cons, if_false, Bool.false_eq_true]
      have hlist := emptyDirs_iff_list (c :: rest)
        (fun c1 hc1 hw => ih c1 hc1 hw) q hnd hch d
      rw [hlist]
      constructor
      · rintro ⟨hmem, hdirs, hfiles⟩
        have hshape := dirPathsOfList_shape (c :: rest) q d hmem
        rcases hshape with ⟨c2, hc2, hs2⟩
        have hdne : d ≠ q := by
          intro heq
          subst heq
          have := hs2.length_le
          simp at this
        refine ⟨by simp [hmem], ?_, hfiles⟩
        intro d1 hd1
        rcases List.mem_cons.1 hd1 with h1 | h1
        · subst h1
          rintro ⟨hp, _⟩
          have := hp.length_le
          have h2 := hs2.length_le
          simp at h2
          omega
        · exact hdirs d1 h1
      · rintro ⟨hmem, hdirs, hfiles⟩
        rcases List.mem_cons.1 hmem with h1 | h1
        · exfalso
          subst h1
          cases hc : c with
          | file n1 c1 lm1 =>
            have hfmem : ((d ++ [c.name], c1) : List String × String)
                ∈ filesOfList d (c :: rest) := by
              rw [filesOfList]
              refine List.mem_append.2 (Or.inl ?_)
              rw [hc, filesOfNode]
              simp [hc]
            have := hfiles _ hfmem
            refine this ⟨List.prefix_append d _, ?_⟩
            intro heq
            have : d.length = d.length + 1 := by
              conv at heq => rw [show ((d ++ [c.name], c1) : List String × String).1
                = d ++ [c.name] from rfl]
              have := congrArg List.length heq
              simpa using this
            omega
          | dir n1 ol1 lm1 cs1 =>
            have hdmem : (d ++ [c.name]) ∈ dirPathsOfList d (c :: rest) := by
              rw [dirPathsOfList]
              refine List.mem_append.2 (Or.inl ?_)
              rw [hc, dirPathsOfNode]
              simp [hc]
            have := hdirs _ (List.mem_cons_of_mem d hdmem)
            refine this ⟨List.prefix_append d _, ?_⟩
            intro heq
            have := congrArg List.length heq
            simp at this
        · exact ⟨h1, fun d1 hd1 => hdirs d1 (by simp [hd1]), hfiles⟩

/-- Unpacking a directory archive into the empty destination writes exactly
the source's files, path for path and byte for byte, in stream order. -/
theorem unzipArchive_files (cs : List FSTree)
    (hnd : nodupNames (cs.map FSTree.name) = true)
    (hch : wfChildren cs = true) :
    (unzipArchive (entriesOfList [] cs)).files = filesOfList [] cs := by
  have hfe : fileEntries (entriesOfList [] cs) = filesOfList [] cs :=
    fileEntries_entriesOfList cs (fun c _ => fileEntries_entriesOfNode c) []
  have hnodup : ((fileEntries (entriesOfList [] cs)).map Prod.fst).Nodup := by
    rw [hfe]
    exact filesOfList_nodup cs (fun c _ hw q => filesOfNode_nodup c hw q) [] hnd hch
  rw [unzipArchive, unzipEntries_files _ _ hnodup (by intro f hf; simp at hf), hfe]
  simp

/-- C5: packing a well-formed directory tree and unpacking the archive into
an empty destination reproduces it: (1) the archive's directory-marker
entries are exactly the source's empty-directory paths — childless
directories get an explicit marker, non-empty directories no entry of their
own; (2) the files written are exactly the source's relative file paths with
identical byte content; and (3) a path is an empty directory of the
destination exactly when it is an empty-directory path of the source. -/
theorem zip_unzip_round_trip (nm : String) (ol : Nat) (lm : Int)
    (cs : List FSTree) (hwf : wfB (.dir nm ol lm cs) = true) :
    markerPaths (zipArchive (.dir nm ol lm cs)) = emptyDirsOfList [] cs
      ∧ (unzipArchive (zipArchive (.dir nm ol lm cs))).files = filesOfList [] cs
      ∧ (∀ d, isEmptyDirIn (unzipArchive (zipArchive (.dir nm ol lm cs))) d
          ↔ d ∈ emptyDirsOfList [] cs) := by
  rw [wfB] at hwf
  rcases Bool.and_eq_true_iff.1 hwf with ⟨hnd, hch⟩
  rw [zipArchive_dir]
  refine ⟨markerPaths_entriesOfList cs
    (fun c _ => markerPaths_entriesOfNode c) [], unzipArchive_files cs hnd hch, ?_⟩
  intro d
  rw [isEmptyDirIn, unzipArchive_files cs hnd hch]
  have hlist := emptyDirs_iff_list cs
    (fun c _ hw => emptyDirs_iff_node c hw) [] hnd hch d
  rw [hlist]
  constructor
  · rintro ⟨hmem, hdirs, hfiles⟩
    refine ⟨(unzipArchive_dirs_mem cs d).1 hmem, ?_, hfiles⟩
    intro d1 hd1
    exact hdirs d1 ((unzipArchive_dirs_mem cs d1).2 hd1)
  · rintro ⟨hmem, hdirs, hfiles⟩
    refine ⟨(unzipArchive_dirs_mem cs d).2 hmem, ?_, hfiles⟩
    intro d1 hd1
    exact hdirs d1 ((unzipArchive_dirs_mem cs d1).1 hd1)

/-- C5 witness: the round trip on a concrete tree with a nested file and an
empty directory. -/
theorem zip_unzip_round_trip_witness :
    markerPaths (zipArchive (.dir "root" 0 0
        [.dir "sub" 0 0 [.file "a.txt" "hi" 0], .dir "emp" 0 0 []]))
      = emptyDirsOfList [] [.dir "sub" 0 0 [.file "a.txt" "hi" 0], .dir "emp" 0 0 []]
      ∧ (unzipArchive (zipArchive (.dir "root" 0 0
          [.dir "sub" 0 0 [.file "a.txt" "hi" 0], .dir "emp" 0 0 []]))).files
        = filesOfList [] [.dir "sub" 0 0 [.file "a.txt" "hi" 0], .dir "emp" 0 0 []]
      ∧ (∀ d, isEmptyDirIn (unzipArchive (zipArchive (.dir "root" 0 0
            [.dir "sub" 0 0 [.file "a.txt" "hi" 0], .dir "emp" 0 0 []]))) d
          ↔ d ∈ emptyDirsOfList []
              [.dir "sub" 0 0 [.file "a.txt" "hi" 0], .dir "emp" 0 0 []]) :=
  zip_unzip_round_trip "root" 0 0
    [.dir "sub" 0 0 [.file "a.txt" "hi" 0], .dir "emp" 0 0 []]
    (by simp [wfB, wfChildren, nodupNames, FSTree.name])
